import Mathlib

/-!
Verification of the Budgetlytic text-to-category classification engine.

This file gives a shallow embedding of the two categorizer variants of the
repository and proves / refutes the specified properties about them:

* `Categorizer` embeds `src/ai/categorizer.py` (the "simple" variant):
  whole-text substring keyword matching, two word-boundary regex heuristics,
  a bare-number amount heuristic, ranking by `(-score, CATEGORY_NAMES.index)`,
  and `add_custom_category`.
* `Catagory` embeds `src/nlp_module/catagory.py` (the "advanced" variant):
  token-level exact / fuzzy / ConceptNet matching, a persistent lookup cache,
  ranking by `(-score, CATEGORY_PRIORITY.get(name, 0))`, base-key
  deduplication, and `extract_amount`.

Python `dict` / `defaultdict` values are modelled as insertion-ordered
association lists (Python dicts preserve insertion order), machine floats
that only ever hold small integer values are modelled as `Nat`, and the
external pieces the code calls (the spaCy tokenizer, `fuzz.ratio`, and the
ConceptNet HTTP fetch) are parameters of the embedding.  Fallible code
(the `CATEGORY_NAMES.index` lookup, which can raise `ValueError`) returns
`Except`.
-/

/-! ## Python string primitives (ASCII fragment used by the sources) -/

/-- The characters Python's `str.strip()` / `\s` treat as whitespace
(ASCII fragment; the repository only manipulates ASCII text). -/
def isPySpace (c : Char) : Bool :=
  c = ' ' || c = '\t' || c = '\n' || c = '\r' || c = '\x0b' || c = '\x0c'

/-- ASCII lower-casing of one character, as Python `str.lower()` acts on the
ASCII texts of this repository. -/
def pyLowerChar (c : Char) : Char :=
  if 'A' ≤ c ∧ c ≤ 'Z' then Char.ofNat (c.toNat + 32) else c

/-- Python `str.lower()` on the character list of a string. -/
def pyLower (s : List Char) : List Char :=
  s.map pyLowerChar

/-- Python `str.strip()`: drop leading and trailing whitespace. -/
def pyStrip (s : List Char) : List Char :=
  ((s.dropWhile isPySpace).reverse.dropWhile isPySpace).reverse

/-- A regex word character (`\w`, ASCII fragment): letter, digit or `_`. -/
def isWordChar (c : Char) : Bool :=
  c.isAlpha || c.isDigit || c = '_'

/-- `needle` is a prefix of `hay`. -/
def isPrefixList : List Char → List Char → Bool
  | [], _ => true
  | _ :: _, [] => false
  | a :: as, b :: bs => a == b && isPrefixList as bs

/-- Python `needle in haystack` substring test. -/
def strContains (hay needle : List Char) : Bool :=
  isPrefixList needle hay ||
    match hay with
    | [] => false
    | _ :: t => strContains t needle

/-- Whether the word `w` occurs in `cs` starting at index `i` with a regex
word boundary on both sides; this is the meaning of `\bw\b` for a word `w`
made of word characters. -/
def wordAt (cs w : List Char) (i : Nat) : Bool :=
  ((cs.drop i).take w.length == w) &&
    (i == 0 || !isWordChar (((cs.take i).getLast?).getD ' ')) &&
    (match (cs.drop (i + w.length)).head? with
     | some c => !isWordChar c
     | none => true)

/-- `re.search(r"\b(w1|w2|...)\b", cs)` viewed as a Boolean: some word of
`ws` occurs in `cs` delimited by word boundaries. -/
def hasWordIn (ws : List (List Char)) (cs : List Char) : Bool :=
  (List.range (cs.length + 1)).any (fun i => ws.any (fun w => wordAt cs w i))

/-- Numeric value of a digit string. -/
def digitsToNat (ds : List Char) : Nat :=
  ds.foldl (fun n c => n * 10 + (c.toNat - '0'.toNat)) 0

/-! ## `re.search(r"\b\d{2,8}\b", text)` (simple-variant amount heuristic)

A match of `\b\d{2,8}\b` is a maximal digit run of length 2–8 whose
neighbouring characters (if any) are not word characters: a digit adjacent
to a further word character admits no word boundary, and the greedy
`\d{2,8}` with a required trailing `\b` cannot stop in the middle of a
digit run.  `re.search` returns the leftmost such run. -/

/-- Scan for the first `\b\d{2,8}\b` match; `prev` is the character just
before the scan position (`none` at the start of the string). -/
def findBareAmountGo (prev : Option Char) : List Char → Option Nat
  | [] => none
  | c :: rest =>
    if c.isDigit && (match prev with | none => true | some p => !isWordChar p) then
      let run := c :: rest.takeWhile (·.isDigit)
      let nextOk := match rest.dropWhile (·.isDigit) with
        | [] => true
        | d :: _ => !isWordChar d
      if 2 ≤ run.length && run.length ≤ 8 && nextOk then some (digitsToNat run)
      else findBareAmountGo (some c) rest
    else findBareAmountGo (some c) rest

/-- `re.search(r"\b\d{2,8}\b", cs)` returning the numeric value of the match. -/
def findBareAmount (cs : List Char) : Option Nat :=
  findBareAmountGo none cs

/-! ## `src/nlp_module/catagory.py`, `extract_amount`:
`re.findall(r"(?:₹|Rs\.?|INR)\s?(\d{2,8})", text, re.IGNORECASE)` and the
value of the last match (`0.0` when there is none). -/

namespace Catagory

/-- Greedy `(\d{2,8})`: up to eight leading digits, at least two required.
Returns the digits and the remaining characters. -/
def takeAmountDigits (cs : List Char) : Option (List Char × List Char) :=
  let ds := (cs.takeWhile (·.isDigit)).take 8
  if 2 ≤ ds.length then some (ds, cs.drop ds.length) else none

/-- `\s?(\d{2,8})`: at most one whitespace character, then the digits.
(The optional whitespace cannot help by backtracking: if a whitespace
character is present the digits must follow it.) -/
def takeSpacedDigits (cs : List Char) : Option (List Char × List Char) :=
  match cs with
  | c :: rest => if isPySpace c then takeAmountDigits rest else takeAmountDigits cs
  | [] => none

/-- One attempt of the full pattern `(?:₹|Rs\.?|INR)\s?(\d{2,8})`
(case-insensitively) at the current position.  On success returns the
captured value and the characters after the match. -/
def tryCurrencyAt (cs : List Char) : Option (Nat × List Char) :=
  let payload := fun (rest : List Char) =>
    (takeSpacedDigits rest).map (fun p => (digitsToNat p.1, p.2))
  match cs with
  | '₹' :: rest => payload rest
  | c₁ :: c₂ :: rest =>
    if pyLowerChar c₁ = 'r' ∧ pyLowerChar c₂ = 's' then
      match rest with
      | '.' :: rest' => payload rest'
      | _ => payload rest
    else if pyLowerChar c₁ = 'i' ∧ pyLowerChar c₂ = 'n' then
      match rest with
      | c₃ :: rest' => if pyLowerChar c₃ = 'r' then payload rest' else none
      | [] => none
    else none
  | _ => none

/-- `re.findall` scan: at each position try the pattern; on a match record
the captured value and resume after it, otherwise advance one character.
`fuel` bounds the recursion and is always at least the list length. -/
def findAllAmountsGo (fuel : Nat) (cs : List Char) : List Nat :=
  match fuel, cs with
  | 0, _ => []
  | _, [] => []
  | fuel + 1, c :: rest =>
    match tryCurrencyAt (c :: rest) with
    | some (v, after) => v :: findAllAmountsGo fuel after
    | none => findAllAmountsGo fuel rest

/-- All captured values of
`re.findall(r"(?:₹|Rs\.?|INR)\s?(\d{2,8})", text, re.IGNORECASE)`, in order. -/
def findAllAmounts (s : String) : List Nat :=
  findAllAmountsGo s.data.length s.data

/-- `extract_amount` of `src/nlp_module/catagory.py`:
`float(match[-1]) if match else 0.0`.  The float always holds a small
integer value, modelled as `Nat`. -/
def extract_amount (s : String) : Nat :=
  ((findAllAmounts s).getLast?).getD 0

/-- Modelled from the spec: §4.5 `extract_amount(text) -> optional number`
describes an *absent* result ("Returns none/absent when no candidate is
found"); this Option-valued reading of the same scan is the claim's version,
to be compared against the code's `extract_amount` above. -/
def extractAmountSpec (s : String) : Option Nat :=
  (findAllAmounts s).getLast?

end Catagory

/-! ## Score / evidence accumulators (Python `defaultdict` as ordered assoc lists) -/

/-- First-match association-list lookup (Python `dict` access). -/
def alookup : List (String × α) → String → Option α
  | [], _ => none
  | (k, v) :: rest, k' => if k = k' then some v else alookup rest k'

/-- `scores[cat] += w` on a `defaultdict(int)`: update the existing entry in
place, or append a fresh one (Python dicts are insertion ordered). -/
def bumpScore : List (String × Nat) → String → Nat → List (String × Nat)
  | [], c, w => [(c, w)]
  | (c', w') :: rest, c, w =>
    if c' = c then (c', w' + w) :: rest else (c', w') :: bumpScore rest c w

/-- `matched_keywords[cat].append(e)` on a `defaultdict(list)`. -/
def bumpEv : List (String × List String) → String → String → List (String × List String)
  | [], c, e => [(c, [e])]
  | (c', es) :: rest, c, e =>
    if c' = c then (c', es ++ [e]) :: rest else (c', es) :: bumpEv rest c e

/-- The per-category score (0 when the category has no entry yet). -/
def scoreOf (m : List (String × Nat)) (c : String) : Nat :=
  (alookup m c).getD 0

/-- The per-category evidence list (empty when absent). -/
def evOf (m : List (String × List String)) (c : String) : List String :=
  (alookup m c).getD []

/-- The running scoring state of one `suggest_categories` call:
`scores` and `matched_keywords`. -/
structure ScoreAcc where
  scores : List (String × Nat)
  ev : List (String × List String)
deriving DecidableEq, Repr

/-- One score-and-evidence contribution `(category, weight, detail)`. -/
abbrev Contrib := String × Nat × String

/-- Apply one contribution: `scores[cat] += w; matched_keywords[cat].append(e)`. -/
def applyContrib (acc : ScoreAcc) (c : Contrib) : ScoreAcc :=
  ⟨bumpScore acc.scores c.1 c.2.1, bumpEv acc.ev c.1 c.2.2⟩

/-- Apply a list of contributions in order. -/
def applyContribs (acc : ScoreAcc) (cs : List Contrib) : ScoreAcc :=
  cs.foldl applyContrib acc

/-! ## The keyword index

Both variants build `CATEGORY_KEYWORDS`, a dict mapping each lower-cased
keyword to the list of category names that declare it, by iterating the
registry in order and appending. -/

/-- `CATEGORY_KEYWORDS[kw].append(name)`: append to the existing entry or
create a new key at the end. -/
def addKw : List (String × List String) → String → String → List (String × List String)
  | [], k, n => [(k, [n])]
  | (k', ns) :: rest, k, n =>
    if k' = k then (k', ns ++ [n]) :: rest else (k', ns) :: addKw rest k n

/-- Build the keyword index from `(name, keywords)` pairs, lower-casing each
keyword, exactly as the module-level loops of both sources do. -/
def buildIndex (cats : List (String × List String)) : List (String × List String) :=
  cats.foldl
    (fun m c => c.2.foldl (fun m kw => addKw m (String.mk (pyLower kw.data)) c.1) m) []

/-! ## Ranking

Both variants call `sorted(scores.items(), key=lambda x: (-x[1], rank(x[0])))`.
Python's sort orders by the key tuples lexicographically; we sort with the
corresponding total preorder.  (Ties in the full key never arise in the
proofs below: distinct scored categories always receive distinct ranks.) -/

/-- The sort order `(-score, rank)`: `a` comes no later than `b`. -/
def rkLE (score rank : α → Nat) (a b : α) : Prop :=
  score b < score a ∨ (score a = score b ∧ rank a ≤ rank b)

instance (score rank : α → Nat) : DecidableRel (rkLE score rank) := fun a b => by
  unfold rkLE; infer_instance

instance (score rank : α → Nat) : IsTotal α (rkLE score rank) :=
  ⟨by intro a b; unfold rkLE; omega⟩

instance (score rank : α → Nat) : IsTrans α (rkLE score rank) :=
  ⟨by intro a b c; unfold rkLE; omega⟩

/-- The strict ordering the spec claims of the output: strictly descending
score, ties broken by strictly ascending rank. -/
def strictRank (score rank : α → Nat) (a b : α) : Prop :=
  score b < score a ∨ (score a = score b ∧ rank a < rank b)

/-! ## `src/nlp_module/catagory.py`: registry, ConceptNet cache, suggestions -/

namespace Catagory

/-- One entry of `CATEGORY_DATA` in `src/nlp_module/catagory.py`. -/
structure Cat where
  name : String
  priority : Nat
  keywords : List String
deriving DecidableEq, Repr

/-- `CATEGORY_DATA` of `src/nlp_module/catagory.py`, verbatim. -/
def CATEGORY_DATA : List Cat := [
  ⟨"Groceries", 1, ["milk", "eggs", "bread", "rice", "atta", "flour", "salt", "sugar", "tea",
    "coffee", "biscuit", "oil", "grocery", "vegetable", "fruit", "dal", "pulses", "tofu",
    "curd", "paneer"]⟩,
  ⟨"Food & Dining", 2, ["restaurant", "lunch", "dinner", "breakfast", "snacks", "cafe",
    "pizza", "meal", "swiggy", "zomato", "ubereats", "biryani", "noodles", "thali"]⟩,
  ⟨"Transport", 3, ["uber", "ola", "taxi", "metro", "bus", "train", "flight", "cab", "auto",
    "commute", "parking"]⟩,
  ⟨"Utilities & Bills", 4, ["electricity", "water", "gas", "phone", "recharge", "internet",
    "wifi", "broadband", "dth", "bill"]⟩,
  ⟨"Shopping", 5, ["amazon", "flipkart", "myntra", "shopping", "purchase", "mall", "store",
    "shop"]⟩,
  ⟨"Clothing & Fashion", 6, ["shirt", "jeans", "dress", "clothes", "tshirt", "kurti",
    "saree", "shoes", "fashion", "apparel"]⟩,
  ⟨"Entertainment", 7, ["movie", "cinema", "netflix", "prime", "hotstar", "spotify", "fun",
    "bookmyshow", "theatre"]⟩,
  ⟨"Events & Subscriptions", 8, ["membership", "subscription", "ticket", "event"]⟩,
  ⟨"Medical & Health", 9, ["doctor", "medicine", "pharmacy", "clinic", "hospital", "gym",
    "fitness", "yoga", "medication"]⟩,
  ⟨"Personal Care", 10, ["shampoo", "soap", "toothpaste", "skincare", "cosmetic", "makeup",
    "perfume", "lotion"]⟩,
  ⟨"Home Essentials", 11, ["detergent", "cleaner", "handwash", "dettol", "mop", "broom",
    "bucket"]⟩,
  ⟨"Rent & Housing", 12, ["rent", "maintenance", "society", "apartment", "housing"]⟩,
  ⟨"Investment & Savings", 13, ["investment", "mutual fund", "sip", "stocks", "shares",
    "fd", "rd", "deposit", "nps", "lic", "premium"]⟩,
  ⟨"Education", 14, ["school", "tuition", "education", "exam", "fees", "college", "book"]⟩,
  ⟨"Childcare", 15, ["child", "kid", "baby", "infant"]⟩,
  ⟨"Work & Office", 16, ["office", "work", "job", "project"]⟩,
  ⟨"Gifts & Donations", 17, ["gift", "donation", "birthday", "wedding", "present", "ngo"]⟩,
  ⟨"Hobbies & Leisure", 18, ["hobby", "craft", "art", "book", "paint", "sketch", "novel"]⟩,
  ⟨"Others", 99, ["miscellaneous", "unknown", "other"]⟩]

/-- The category names in registry (declaration) order. -/
def categoryNames : List String := CATEGORY_DATA.map (·.name)

/-- `CATEGORY_PRIORITY`: name → priority. -/
def CATEGORY_PRIORITY : List (String × Nat) := CATEGORY_DATA.map (fun c => (c.name, c.priority))

/-- `CATEGORY_PRIORITY.get(name, 0)`, the rank used by the sort key. -/
def priorityOf (name : String) : Nat := (alookup CATEGORY_PRIORITY name).getD 0

/-- `CATEGORY_KEYWORDS` of `src/nlp_module/catagory.py`. -/
def CATEGORY_KEYWORDS : List (String × List String) :=
  buildIndex (CATEGORY_DATA.map (fun c => (c.name, c.keywords)))

/-- `FUZZY_THRESHOLD = 85`. -/
def FUZZY_THRESHOLD : Nat := 85

/-! ### The ConceptNet lookup and its cache (`get_conceptnet_isas`) -/

/-- Outcome of the external `requests.get` call for one term:
a 200 response with the parsed is-a labels, a non-200 status, or a raised
exception (timeout, connection error, malformed payload...). -/
inductive FetchOutcome where
  | ok (isas : List String)
  | badStatus
  | netFail
deriving DecidableEq, Repr

/-- The cache state: the in-memory `conceptnet_cache` dict and the contents
of the persisted `conceptnet_cache.json` file. -/
structure CNState where
  cache : List (String × List String)
  file : List (String × List String)
deriving DecidableEq, Repr

/-- `conceptnet_cache[word] = v`: dict assignment (update or append). -/
def cacheInsert : List (String × List String) → String → List String →
    List (String × List String)
  | [], k, v => [(k, v)]
  | (k', v') :: rest, k, v =>
    if k' = k then (k', v) :: rest else (k', v') :: cacheInsert rest k v

/-- Result of one `get_conceptnet_isas` call: the returned labels, the new
cache state, and whether an external call was performed. -/
structure CNResult where
  isas : List String
  st : CNState
  called : Bool
deriving DecidableEq, Repr

/-- `get_conceptnet_isas` of `src/nlp_module/catagory.py`.  On a cache hit it
returns the stored list with no external call.  On a miss it calls the
service: a non-200 status stores `[]` in the in-memory cache and returns
without touching the file; a 200 response stores the labels and rewrites the
file with the whole cache; a raised exception returns `[]` without storing
anything. -/
def get_conceptnet_isas (fetch : String → FetchOutcome) (st : CNState) (word : String) :
    CNResult :=
  match alookup st.cache word with
  | some l => ⟨l, st, false⟩
  | none =>
    match fetch word with
    | .badStatus => ⟨[], ⟨cacheInsert st.cache word [], st.file⟩, true⟩
    | .ok isas =>
      let c := cacheInsert st.cache word isas
      ⟨isas, ⟨c, c⟩, true⟩
    | .netFail => ⟨[], st, true⟩

/-! ### One `suggest_categories` run -/

/-- The contributions of the exact / fuzzy keyword loop for one token:
for each index entry `(kw, cats)` in order, an exact match (`token == kw`)
adds weight 3 to every owning category, otherwise a fuzzy score
`≥ FUZZY_THRESHOLD` adds weight 2. -/
def lexicalContribs (ratio : String → String → Nat) (token : String) : List Contrib :=
  (CATEGORY_KEYWORDS.map (fun e =>
    if token = e.1 then
      e.2.map (fun c => (c, 3, e.1 ++ " (exact)"))
    else if FUZZY_THRESHOLD ≤ ratio token e.1 then
      e.2.map (fun c => (c, 2, token ++ " ~ " ++ e.1 ++ " (fuzzy)"))
    else [])).flatten

/-- `token_matched`: some index entry fired (exactly or fuzzily). -/
def tokenMatched (ratio : String → String → Nat) (token : String) : Bool :=
  CATEGORY_KEYWORDS.any (fun e => token == e.1 || FUZZY_THRESHOLD ≤ ratio token e.1)

/-- The ConceptNet contributions for one unmatched token: each fetched label
equal to an index keyword adds weight 1 to every owning category, once per
label (`seen_concepts`). -/
def semanticContribs (token : String) : List String → List String → List Contrib
  | [], _ => []
  | concept :: rest, seen =>
    if concept ∈ seen then semanticContribs token rest seen
    else
      match alookup CATEGORY_KEYWORDS concept with
      | some cats =>
        (cats.map (fun c => (c, 1, token ++ " → " ++ concept ++ " (ConceptNet)"))) ++
          semanticContribs token rest (concept :: seen)
      | none => semanticContribs token rest seen

/-- Process one token: apply its lexical contributions; when nothing
matched, consult ConceptNet (possibly updating the cache) and apply the
semantic contributions. -/
def processToken (ratio : String → String → Nat) (fetch : String → FetchOutcome)
    (acc : ScoreAcc) (st : CNState) (token : String) : ScoreAcc × CNState :=
  let acc1 := applyContribs acc (lexicalContribs ratio token)
  if tokenMatched ratio token then (acc1, st)
  else
    let r := get_conceptnet_isas fetch st token
    (applyContribs acc1 (semanticContribs token r.isas []), r.st)

/-- Process all tokens in order, threading the accumulator and the cache. -/
def processTokens (ratio : String → String → Nat) (fetch : String → FetchOutcome) :
    List String → ScoreAcc → CNState → ScoreAcc × CNState
  | [], acc, st => (acc, st)
  | t :: ts, acc, st =>
    let p := processToken ratio fetch acc st t
    processTokens ratio fetch ts p.1 p.2

/-- One ranked suggestion of the advanced variant: `(category, score,
explanation)`. -/
structure Suggestion where
  category : String
  score : Nat
  explanation : String
deriving DecidableEq, Repr

/-- The deduplication key: `cat.lower().split("&")[0].strip()`. -/
def baseKey (cat : String) : String :=
  String.mk (pyStrip ((pyLower cat.data).takeWhile (· ≠ '&')))

/-- The explanation attached to a category. -/
def explanationOf (ev : List (String × List String)) (cat : String) : String :=
  let es := evOf ev cat
  if es = [] then "Heuristic or ConceptNet match" else String.intercalate ", " es

/-- The final loop of `suggest_categories`: walk the ranked list, skip
categories whose base key was already emitted, and stop once `top_n`
suggestions have been appended (the length check runs *after* appending). -/
def finalLoop (ev : List (String × List String)) (topN : Nat) :
    List (String × Nat) → List String → Nat → List Suggestion
  | [], _, _ => []
  | (cat, score) :: rest, seen, count =>
    if baseKey cat ∈ seen then finalLoop ev topN rest seen count
    else
      let s : Suggestion := ⟨cat, score, explanationOf ev cat⟩
      if topN ≤ count + 1 then [s]
      else s :: finalLoop ev topN rest (seen ++ [baseKey cat]) (count + 1)

/-- The ranked score list: `sorted(scores.items(), key=lambda x: (-x[1],
CATEGORY_PRIORITY.get(x[0], 0)))`. -/
def rankScores (scores : List (String × Nat)) : List (String × Nat) :=
  scores.insertionSort (rkLE Prod.snd (fun p => priorityOf p.1))

/-- `suggest_categories` of `src/nlp_module/catagory.py`, returning the
suggestion list and the final cache state.  `tok` abstracts the spaCy
pipeline (`[token.lemma_ for token in nlp(text_l) if token.is_alpha and not
token.is_stop]`, applied to the lower-cased text) and `ratio` abstracts
`fuzz.ratio`. -/
def suggest_categories (tok : String → List String) (ratio : String → String → Nat)
    (fetch : String → FetchOutcome) (st : CNState) (text : String) (topN : Nat) :
    List Suggestion × CNState :=
  if (pyStrip text.data) = [] then ([⟨"Others", 1, "Empty line"⟩], st)
  else
    let textL := String.mk (pyLower text.data)
    let p := processTokens ratio fetch (tok textL) ⟨[], []⟩ st
    let scores := if p.1.scores = [] then bumpScore [] "Others" 1 else p.1.scores
    (finalLoop p.1.ev topN (rankScores scores) [] 0, p.2)

end Catagory

/-! ## `src/ai/categorizer.py`: the simple variant -/

namespace Categorizer

/-- One entry of `CATEGORY_DATA` in `src/ai/categorizer.py` (name, emoji,
keywords).  The registry is left as a parameter below because the module
replaces the built-in data wholesale with `ai/categories.json` when that
file exists. -/
structure Cat where
  name : String
  emoji : String
  keywords : List String
deriving DecidableEq, Repr

/-- The built-in `CATEGORY_DATA` of `src/ai/categorizer.py`, verbatim. -/
def defaultData : List Cat := [
  ⟨"Food & Dining", "🍛", ["restaurant", "food", "lunch", "dinner", "breakfast", "snacks",
    "cafe", "pizza", "groceries", "meal", "coffee", "tea", "swiggy", "zomato", "ubereats",
    "grocery", "milk", "eggs", "vegetable", "fruit"]⟩,
  ⟨"Transport", "🚗", ["uber", "ola", "taxi", "metro", "bus", "train", "flight", "cab",
    "auto", "petrol", "diesel", "fuel", "toll", "parking", "commute", "travel"]⟩,
  ⟨"Utilities & Bills", "💡", ["electricity", "water", "gas", "phone", "recharge",
    "internet", "wifi", "broadband", "dth", "postpaid", "prepaid", "bill", "utility"]⟩,
  ⟨"Shopping", "🛍️", ["amazon", "flipkart", "myntra", "shopping", "clothes", "apparel",
    "shoes", "bags", "fashion", "accessory", "mall", "purchase"]⟩,
  ⟨"Entertainment", "🎬", ["movie", "netflix", "hotstar", "prime", "cinema",
    "entertainment", "music", "spotify", "concert", "game", "pubg", "bookmyshow", "fun",
    "party"]⟩,
  ⟨"Medical & Health", "💊", ["doctor", "medicine", "pharmacy", "hospital", "clinic",
    "health", "appointment", "test", "surgery", "fitness", "gym", "yoga", "medication"]⟩,
  ⟨"Gifts & Donations", "🎁", ["gift", "donation", "charity", "ngo", "help", "birthday",
    "present", "wedding", "anniversary", "contribution"]⟩,
  ⟨"Children & Education", "🎒", ["school", "tuition", "education", "exam", "fees",
    "books", "stationery", "college", "child", "student", "course", "learning"]⟩,
  ⟨"Investment & Savings", "💹", ["investment", "mutual fund", "sip", "stocks", "shares",
    "fd", "rd", "deposit", "nps", "insurance", "lic", "policy", "savings"]⟩,
  ⟨"Personal Care", "🧴", ["salon", "spa", "haircut", "beauty", "parlour", "grooming",
    "cosmetics", "skincare"]⟩,
  ⟨"Home & Rent", "🏠", ["rent", "maintenance", "society", "home", "repair", "furniture",
    "decor", "appliance"]⟩,
  ⟨"Other", "🔖", ["miscellaneous", "other", "unknown", "uncategorized"]⟩]

/-- `CATEGORY_KEYWORDS` derived from a registry. -/
def keywordIndex (reg : List Cat) : List (String × List String) :=
  buildIndex (reg.map (fun c => (c.name, c.keywords)))

/-- `CATEGORY_NAMES` derived from a registry. -/
def categoryNames (reg : List Cat) : List String := reg.map (·.name)

/-- `list.index(x)` — `some i` for the first occurrence, `none` when absent
(where Python raises `ValueError`). -/
def idxOf : List String → String → Option Nat
  | [], _ => none
  | n :: rest, x => if n = x then some 0 else (idxOf rest x).map (· + 1)

/-- The word alternatives of
`re.search(r"\b(tuition|school|education|student|exam|fees|college)\b", text_l)`. -/
def eduWords : List (List Char) :=
  ["tuition".data, "school".data, "education".data, "student".data, "exam".data,
   "fees".data, "college".data]

/-- The word alternatives of
`re.search(r"\b(rent|maintenance|society|home)\b", text_l)`. -/
def rentWords : List (List Char) :=
  ["rent".data, "maintenance".data, "society".data, "home".data]

/-- The keyword-substring loop: for every index entry whose keyword occurs
as a substring of the lowered text, add weight 3 to every owning category
and record the keyword. -/
def keywordPass (reg : List Cat) (textL : List Char) : ScoreAcc :=
  (keywordIndex reg).foldl
    (fun acc e =>
      if strContains textL e.1.data then
        applyContribs acc (e.2.map (fun c => (c, 3, e.1)))
      else acc)
    ⟨[], []⟩

/-- The two regex heuristics: `+= 2` for `Children & Education` and
`Home & Rent` (scores only, no recorded keywords). -/
def regexPass (acc : ScoreAcc) (textL : List Char) : ScoreAcc :=
  let acc1 := if hasWordIn eduWords textL then
      ⟨bumpScore acc.scores "Children & Education" 2, acc.ev⟩
    else acc
  if hasWordIn rentWords textL then
    ⟨bumpScore acc1.scores "Home & Rent" 2, acc1.ev⟩
  else acc1

/-- The amount heuristic: when `re.search(r"\b\d{2,8}\b", text_l)` finds a
number above 5000, `Home & Rent` and `Investment & Savings` each gain 1
(the failing lookup path of the `try` block is the `none` case). -/
def amountPass (acc : ScoreAcc) (textL : List Char) : ScoreAcc :=
  match findBareAmount textL with
  | some amt =>
    if 5000 < amt then
      ⟨bumpScore (bumpScore acc.scores "Home & Rent" 1) "Investment & Savings" 1, acc.ev⟩
    else acc
  | none => acc

/-- The accumulated scores of `suggest_categories` before the fallback:
keyword pass, then the regex heuristics, then the amount heuristic. -/
def heuristicAcc (reg : List Cat) (textL : List Char) : ScoreAcc :=
  amountPass (regexPass (keywordPass reg textL) textL) textL

/-- A suggestion of the simple variant: `(category, score, emoji,
explanation)`. -/
structure Suggestion where
  category : String
  score : Nat
  emoji : String
  explanation : String
deriving DecidableEq, Repr

/-- `next((c["emoji"] for c in CATEGORY_DATA if c["name"] == cat), "")`. -/
def emojiOf (reg : List Cat) (cat : String) : String :=
  ((reg.find? (fun c => c.name == cat)).map (·.emoji)).getD ""

/-- The explanation string of one suggestion. -/
def explanationOf (ev : List (String × List String)) (cat : String) : String :=
  let es := evOf ev cat
  if es = [] then "No strong keyword match."
  else "Matched keywords: " ++ String.intercalate ", " es

/-- Attach `CATEGORY_NAMES.index` ranks to every scored category; the first
scored category missing from the registry raises `ValueError`. -/
def resolveRanks (names : List String) : List (String × Nat) →
    Except String (List ((String × Nat) × Nat))
  | [] => .ok []
  | (c, s) :: rest =>
    match idxOf names c with
    | some i => (resolveRanks names rest).map (fun l => ((c, s), i) :: l)
    | none => .error "ValueError"

/-- `suggest_categories` of `src/ai/categorizer.py` over a registry
(the built-in data, or the contents of `ai/categories.json` when that file
exists).  Raising `ValueError` is the `Except.error` case. -/
def suggest_categories (reg : List Cat) (text : String) (topN : Nat) :
    Except String (List Suggestion) :=
  let textL := pyLower text.data
  let acc := heuristicAcc reg textL
  let scores := if acc.scores = [] then [("Other", 1)] else acc.scores
  match resolveRanks (categoryNames reg) scores with
  | .error e => .error e
  | .ok withRanks =>
    let ranked := withRanks.insertionSort (rkLE (fun p => p.1.2) Prod.snd)
    .ok ((ranked.take topN).map (fun p =>
      ⟨p.1.1, p.1.2, emojiOf reg p.1.1, explanationOf acc.ev p.1.1⟩))

/-- `add_custom_category` of `src/ai/categorizer.py`: append the new
category (no duplicate check), and persist the whole registry to the
config file.  Returns the new registry and the persisted contents. -/
def add_custom_category (reg : List Cat) (name emoji : String) (keywords : List String) :
    List Cat × List Cat :=
  let r := reg ++ [⟨name, emoji, keywords⟩]
  (r, r)

end Categorizer

/-! ## Generic lemmas about the accumulators -/

theorem keys_bumpScore (m : List (String × Nat)) (c : String) (w : Nat) :
    (bumpScore m c w).map Prod.fst = m.map Prod.fst ∨
      ((bumpScore m c w).map Prod.fst = m.map Prod.fst ++ [c] ∧ c ∉ m.map Prod.fst) := by
  induction m with
  | nil => right; simp [bumpScore]
  | cons hd tl ih =>
    obtain ⟨c', w'⟩ := hd
    by_cases h : c' = c
    · left; simp [bumpScore, h]
    · rcases ih with ih | ⟨ih, hnm⟩
      · left; simp [bumpScore, h, ih]
      · right
        refine ⟨by simp [bumpScore, h, ih], ?_⟩
        simp only [List.map_cons, List.mem_cons]
        rintro (rfl | hc)
        · exact h rfl
        · exact hnm hc

theorem mem_of_keys_bumpScore_eq {m : List (String × Nat)} {c : String} {w : Nat}
    (h : (bumpScore m c w).map Prod.fst = m.map Prod.fst) : c ∈ m.map Prod.fst := by
  induction m with
  | nil => simp [bumpScore] at h
  | cons hd tl ih =>
    obtain ⟨c', w'⟩ := hd
    by_cases hc : c' = c
    · simp [hc]
    · simp only [bumpScore, if_neg hc, List.map_cons, List.cons.injEq] at h
      simp only [List.map_cons, List.mem_cons]
      exact Or.inr (ih h.2)

theorem mem_keys_bumpScore {m : List (String × Nat)} {c x : String} {w : Nat} :
    x ∈ (bumpScore m c w).map Prod.fst ↔ x ∈ m.map Prod.fst ∨ x = c := by
  rcases keys_bumpScore m c w with h | ⟨h, _⟩
  · rw [h]
    constructor
    · exact Or.inl
    · rintro (hx | rfl)
      · exact hx
      · exact mem_of_keys_bumpScore_eq h
  · rw [h]; simp

theorem nodup_keys_bumpScore {m : List (String × Nat)} {c : String} {w : Nat}
    (h : (m.map Prod.fst).Nodup) : ((bumpScore m c w).map Prod.fst).Nodup := by
  rcases keys_bumpScore m c w with hk | ⟨hk, hnm⟩
  · rw [hk]; exact h
  · rw [hk]
    simpa using List.Nodup.append h (List.nodup_singleton c) (by simpa using hnm)

theorem scoreOf_bumpScore_same (m : List (String × Nat)) (c : String) (w : Nat) :
    scoreOf (bumpScore m c w) c = scoreOf m c + w := by
  induction m with
  | nil => simp [bumpScore, scoreOf, alookup]
  | cons hd tl ih =>
    obtain ⟨c', w'⟩ := hd
    by_cases h : c' = c
    · simp [bumpScore, h, scoreOf, alookup]
    · simpa [bumpScore, h, scoreOf, alookup] using ih

theorem scoreOf_bumpScore_ne (m : List (String × Nat)) {c c' : String} (w : Nat)
    (h : c' ≠ c) : scoreOf (bumpScore m c w) c' = scoreOf m c' := by
  have h' : c ≠ c' := Ne.symm h
  induction m with
  | nil => simp [bumpScore, scoreOf, alookup, h']
  | cons hd tl ih =>
    obtain ⟨k, v⟩ := hd
    by_cases hk : k = c
    · subst hk
      simp [bumpScore, scoreOf, alookup, h']
    · by_cases hk' : k = c'
      · subst hk'
        simp [bumpScore, hk, scoreOf, alookup, h]
      · simpa [bumpScore, hk, scoreOf, alookup, hk'] using ih

theorem pos_of_bumpScore {m : List (String × Nat)} {c : String} {w : Nat}
    (hm : ∀ x ∈ m, 1 ≤ x.2) (hw : 1 ≤ w) : ∀ x ∈ bumpScore m c w, 1 ≤ x.2 := by
  induction m with
  | nil => simpa [bumpScore] using hw
  | cons hd tl ih =>
    obtain ⟨c', w'⟩ := hd
    by_cases h : c' = c
    · simp only [bumpScore, if_pos h]
      intro y hy
      rcases List.mem_cons.1 hy with rfl | hy
      · have := hm (c', w') (by simp)
        simp only at this ⊢
        omega
      · exact hm y (List.mem_cons_of_mem _ hy)
    · simp only [bumpScore, if_neg h]
      intro y hy
      rcases List.mem_cons.1 hy with h1 | hy2
      · subst h1; exact hm _ (by simp)
      · exact ih (fun z hz => hm z (List.mem_cons_of_mem _ hz)) y hy2

/-- The scores component of `applyContribs` is a fold of `bumpScore`. -/
theorem scores_applyContribs (acc : ScoreAcc) (cs : List Contrib) :
    (applyContribs acc cs).scores =
      cs.foldl (fun m c => bumpScore m c.1 c.2.1) acc.scores := by
  induction cs generalizing acc with
  | nil => rfl
  | cons hd tl ih => simpa [applyContribs, applyContrib] using ih _

theorem keys_subset_applyContribs {S : List String} {acc : ScoreAcc} {cs : List Contrib}
    (hacc : ∀ x ∈ acc.scores.map Prod.fst, x ∈ S) (hcs : ∀ x ∈ cs, x.1 ∈ S) :
    ∀ x ∈ (applyContribs acc cs).scores.map Prod.fst, x ∈ S := by
  induction cs generalizing acc with
  | nil => exact hacc
  | cons hd tl ih =>
    simp only [applyContribs, List.foldl_cons] at *
    refine @ih (applyContrib acc hd) ?_ (fun x hx => hcs x (List.mem_cons_of_mem _ hx))
    intro x hx
    rcases mem_keys_bumpScore.1 hx with hx | rfl
    · exact hacc x hx
    · exact hcs hd (by simp)

theorem nodup_keys_applyContribs {acc : ScoreAcc} {cs : List Contrib}
    (hacc : (acc.scores.map Prod.fst).Nodup) :
    ((applyContribs acc cs).scores.map Prod.fst).Nodup := by
  induction cs generalizing acc with
  | nil => exact hacc
  | cons hd tl ih =>
    simp only [applyContribs, List.foldl_cons] at *
    exact @ih (applyContrib acc hd) (nodup_keys_bumpScore hacc)

theorem pos_applyContribs {acc : ScoreAcc} {cs : List Contrib}
    (hacc : ∀ x ∈ acc.scores, 1 ≤ x.2) (hcs : ∀ x ∈ cs, 1 ≤ x.2.1) :
    ∀ x ∈ (applyContribs acc cs).scores, 1 ≤ x.2 := by
  induction cs generalizing acc with
  | nil => exact hacc
  | cons hd tl ih =>
    simp only [applyContribs, List.foldl_cons] at *
    exact @ih (applyContrib acc hd)
      (pos_of_bumpScore hacc (hcs hd (by simp)))
      (fun x hx => hcs x (List.mem_cons_of_mem _ hx))

/-! ## The ranking lemma: sorting by `(-score, rank)` yields the claimed
strict pairwise order whenever distinct categories have distinct ranks. -/

theorem pairwise_strict_insertionSort (score rank : α → Nat) (key : α → String)
    (l : List α) (hnd : (l.map key).Nodup)
    (hinj : ∀ a ∈ l, ∀ b ∈ l, key a ≠ key b → rank a ≠ rank b) :
    (l.insertionSort (rkLE score rank)).Pairwise (strictRank score rank) := by
  have hs : (l.insertionSort (rkLE score rank)).Pairwise (rkLE score rank) :=
    List.sorted_insertionSort (rkLE score rank) l
  have hperm := List.perm_insertionSort (rkLE score rank) l
  have hnd2 : ((l.insertionSort (rkLE score rank)).map key).Nodup :=
    ((hperm.map key).symm).nodup hnd
  have hne : (l.insertionSort (rkLE score rank)).Pairwise (fun a b => key a ≠ key b) :=
    List.pairwise_map.1 hnd2
  have hand := hs.and hne
  refine List.Pairwise.imp_of_mem ?_ hand
  intro a b ha hb hab
  have ha' : a ∈ l := hperm.subset ha
  have hb' : b ∈ l := hperm.subset hb
  rcases hab.1 with hlt | ⟨heq, hle⟩
  · exact Or.inl hlt
  · refine Or.inr ⟨heq, ?_⟩
    have := hinj a ha' b hb' hab.2
    omega

/-! ## Lemmas about the deduplicating truncation loop (advanced variant) -/

namespace Catagory

theorem finalLoop_sublist (ev : List (String × List String)) (topN : Nat) :
    ∀ (l : List (String × Nat)) (seen : List String) (count : Nat),
      List.Sublist ((finalLoop ev topN l seen count).map (fun s => (s.category, s.score))) l := by
  intro l
  induction l with
  | nil => intro seen count; simp [finalLoop]
  | cons hd tl ih =>
    intro seen count
    obtain ⟨cat, score⟩ := hd
    by_cases h : baseKey cat ∈ seen
    · simpa [finalLoop, h] using (ih seen count).cons _
    · simp only [finalLoop, if_neg h]
      by_cases h2 : topN ≤ count + 1
      · simp only [if_pos h2, List.map_cons, List.map_nil]
        exact (List.nil_sublist tl).cons₂ _
      · simp only [if_neg h2, List.map_cons]
        exact (ih _ _).cons₂ _

theorem finalLoop_length (ev : List (String × List String)) (topN : Nat) :
    ∀ (l : List (String × Nat)) (seen : List String) (count : Nat), count < topN →
      (finalLoop ev topN l seen count).length ≤ topN - count := by
  intro l
  induction l with
  | nil => intro seen count _; simp [finalLoop]
  | cons hd tl ih =>
    intro seen count hcount
    obtain ⟨cat, score⟩ := hd
    by_cases h : baseKey cat ∈ seen
    · simpa [finalLoop, h] using ih seen count hcount
    · simp only [finalLoop, if_neg h]
      by_cases h2 : topN ≤ count + 1
      · simp only [if_pos h2, List.length_singleton]
        omega
      · simp only [if_neg h2, List.length_cons]
        have := ih (seen ++ [baseKey cat]) (count + 1) (by omega)
        omega

theorem finalLoop_baseKeys (ev : List (String × List String)) (topN : Nat) :
    ∀ (l : List (String × Nat)) (seen : List String) (count : Nat),
      ((finalLoop ev topN l seen count).map (fun s => baseKey s.category)).Nodup ∧
        ∀ b ∈ (finalLoop ev topN l seen count).map (fun s => baseKey s.category), b ∉ seen := by
  intro l
  induction l with
  | nil => intro seen count; simp [finalLoop]
  | cons hd tl ih =>
    intro seen count
    obtain ⟨cat, score⟩ := hd
    by_cases h : baseKey cat ∈ seen
    · simpa [finalLoop, h] using ih seen count
    · simp only [finalLoop, if_neg h]
      by_cases h2 : topN ≤ count + 1
      · simp only [if_pos h2]
        constructor
        · simp
        · intro b hb
          simp only [List.map_cons, List.map_nil, List.mem_singleton] at hb
          subst hb; exact h
      · simp only [if_neg h2, List.map_cons]
        obtain ⟨ihnd, ihseen⟩ := ih (seen ++ [baseKey cat]) (count + 1)
        constructor
        · refine List.nodup_cons.2 ⟨?_, ihnd⟩
          intro hmem
          exact ihseen _ hmem (by simp)
        · intro b hb
          rcases List.mem_cons.1 hb with rfl | hb
          · exact h
          · intro hbseen
            exact ihseen b hb (List.mem_append_left _ hbseen)

theorem finalLoop_ne_nil (ev : List (String × List String)) (topN : Nat)
    (cat : String) (score : Nat) (l : List (String × Nat)) :
    finalLoop ev topN ((cat, score) :: l) [] 0 ≠ [] := by
  simp only [finalLoop, List.not_mem_nil, if_neg (by simp : ¬baseKey cat ∈ ([] : List String))]
  by_cases h2 : topN ≤ 0 + 1 <;> simp [h2]

theorem finalLoop_mem (ev : List (String × List String)) (topN : Nat) :
    ∀ (l : List (String × Nat)) (seen : List String) (count : Nat),
      ∀ s ∈ finalLoop ev topN l seen count, (s.category, s.score) ∈ l := by
  intro l seen count s hs
  have := (finalLoop_sublist ev topN l seen count).subset
  exact this (List.mem_map_of_mem _ hs)

/-! ### Registry facts (decidable checks on the concrete data) -/

set_option maxRecDepth 10000

/-- Every category name the keyword index can produce is a registry name. -/
theorem catKeywords_values_mem : ∀ e ∈ CATEGORY_KEYWORDS, ∀ c ∈ e.2, c ∈ categoryNames := by
  decide

/-- The fallback category is declared in the registry. -/
theorem others_mem_names : "Others" ∈ categoryNames := by decide

/-- Distinct registry names carry distinct priorities. -/
theorem priorityOf_inj :
    ∀ a ∈ categoryNames, ∀ b ∈ categoryNames, a ≠ b → priorityOf a ≠ priorityOf b := by
  decide

/-- Priorities are strictly increasing along the declaration order, so the
priority tie-break coincides with registry declaration order. -/
theorem priorities_increasing : (CATEGORY_DATA.map (·.priority)).Pairwise (· < ·) := by
  decide

theorem alookup_mem {l : List (String × α)} {k : String} {v : α}
    (h : alookup l k = some v) : (k, v) ∈ l := by
  induction l with
  | nil => simp [alookup] at h
  | cons hd tl ih =>
    obtain ⟨k', v'⟩ := hd
    by_cases hk : k' = k
    · subst hk
      rw [alookup, if_pos rfl] at h
      cases h
      simp
    · simp only [alookup, if_neg hk] at h
      exact List.mem_cons_of_mem _ (ih h)

/-- Every lexical contribution names a registry category with weight ≥ 1. -/
theorem lexicalContribs_ok (ratio : String → String → Nat) (token : String) :
    ∀ x ∈ lexicalContribs ratio token, x.1 ∈ categoryNames ∧ 1 ≤ x.2.1 := by
  intro x hx
  simp only [lexicalContribs, List.mem_flatten, List.mem_map] at hx
  obtain ⟨inner, ⟨e, he, rfl⟩, hxin⟩ := hx
  by_cases h1 : token = e.1
  · simp only [if_pos h1, List.mem_map] at hxin
    obtain ⟨c, hc, rfl⟩ := hxin
    exact ⟨catKeywords_values_mem e he c hc, by norm_num⟩
  · simp only [if_neg h1] at hxin
    by_cases h2 : FUZZY_THRESHOLD ≤ ratio token e.1
    · simp only [if_pos h2, List.mem_map] at hxin
      obtain ⟨c, hc, rfl⟩ := hxin
      exact ⟨catKeywords_values_mem e he c hc, by norm_num⟩
    · simp [if_neg h2] at hxin

/-- Every semantic contribution names a registry category with weight ≥ 1. -/
theorem semanticContribs_ok (token : String) :
    ∀ (isas seen : List String), ∀ x ∈ semanticContribs token isas seen,
      x.1 ∈ categoryNames ∧ 1 ≤ x.2.1 := by
  intro isas
  induction isas with
  | nil => intro seen x hx; simp [semanticContribs] at hx
  | cons concept rest ih =>
    intro seen x hx
    simp only [semanticContribs] at hx
    by_cases hseen : concept ∈ seen
    · exact ih _ x (by simpa [hseen] using hx)
    · simp only [if_neg hseen] at hx
      cases hlk : alookup CATEGORY_KEYWORDS concept with
      | none => exact ih _ x (by simpa [hlk] using hx)
      | some cats =>
        rw [hlk] at hx
        rcases List.mem_append.1 hx with hx | hx
        · simp only [List.mem_map] at hx
          obtain ⟨c, hc, rfl⟩ := hx
          exact ⟨catKeywords_values_mem (concept, cats) (alookup_mem hlk) c hc, le_refl 1⟩
        · exact ih _ x hx

/-- The well-formedness invariant of the running scores. -/
def ScoresOk (acc : ScoreAcc) : Prop :=
  (∀ x ∈ acc.scores.map Prod.fst, x ∈ categoryNames) ∧
    (acc.scores.map Prod.fst).Nodup ∧ (∀ x ∈ acc.scores, 1 ≤ x.2)

theorem scoresOk_applyContribs {acc : ScoreAcc} {cs : List Contrib} (h : ScoresOk acc)
    (hcs : ∀ x ∈ cs, x.1 ∈ categoryNames ∧ 1 ≤ x.2.1) : ScoresOk (applyContribs acc cs) :=
  ⟨keys_subset_applyContribs h.1 (fun x hx => (hcs x hx).1),
   nodup_keys_applyContribs h.2.1,
   pos_applyContribs h.2.2 (fun x hx => (hcs x hx).2)⟩

theorem scoresOk_processToken {acc : ScoreAcc} {st : CNState}
    (ratio : String → String → Nat) (fetch : String → FetchOutcome) (t : String)
    (h : ScoresOk acc) : ScoresOk (processToken ratio fetch acc st t).1 := by
  unfold processToken
  by_cases hm : tokenMatched ratio t
  · simpa [hm] using scoresOk_applyContribs h (lexicalContribs_ok ratio t)
  · simp only [hm, Bool.false_eq_true, if_false]
    exact scoresOk_applyContribs (scoresOk_applyContribs h (lexicalContribs_ok ratio t))
      (semanticContribs_ok t _ _)

theorem scoresOk_processTokens (ratio : String → String → Nat)
    (fetch : String → FetchOutcome) :
    ∀ (ts : List String) (acc : ScoreAcc) (st : CNState), ScoresOk acc →
      ScoresOk (processTokens ratio fetch ts acc st).1 := by
  intro ts
  induction ts with
  | nil => intro acc st h; exact h
  | cons t rest ih =>
    intro acc st h
    exact ih _ _ (scoresOk_processToken ratio fetch t h)

end Catagory

/-! ### Properties of the ranked, deduplicated output (advanced variant) -/

namespace Catagory

/-- The strict output order of the advanced variant: strictly descending
score, ties by strictly ascending priority. -/
def outOrder : (String × Nat) → (String × Nat) → Prop :=
  strictRank Prod.snd (fun p => priorityOf p.1)

theorem rankScores_pairwise {scores : List (String × Nat)}
    (hsub : ∀ x ∈ scores.map Prod.fst, x ∈ categoryNames)
    (hnd : (scores.map Prod.fst).Nodup) :
    (rankScores scores).Pairwise outOrder := by
  refine pairwise_strict_insertionSort Prod.snd (fun p => priorityOf p.1) Prod.fst scores hnd ?_
  intro a ha b hb hne
  exact priorityOf_inj a.1 (hsub a.1 (List.mem_map_of_mem _ ha)) b.1
    (hsub b.1 (List.mem_map_of_mem _ hb)) hne

theorem finalLoop_pairwise {scores : List (String × Nat)}
    (ev : List (String × List String)) (topN : Nat)
    (hsub : ∀ x ∈ scores.map Prod.fst, x ∈ categoryNames)
    (hnd : (scores.map Prod.fst).Nodup) :
    ((finalLoop ev topN (rankScores scores) [] 0).map
      (fun s => (s.category, s.score))).Pairwise outOrder :=
  (rankScores_pairwise hsub hnd).sublist (finalLoop_sublist ev topN _ [] 0)

/-- The scores list actually ranked by `suggest_categories` (including the
`Others` fallback). -/
def finalScores (tok : String → List String) (ratio : String → String → Nat)
    (fetch : String → FetchOutcome) (st : CNState) (text : String) :
    List (String × Nat) :=
  let textL := String.mk (pyLower text.data)
  let p := processTokens ratio fetch (tok textL) ⟨[], []⟩ st
  if p.1.scores = [] then bumpScore [] "Others" 1 else p.1.scores

theorem scoresOk_empty : ScoresOk ⟨[], []⟩ := by
  refine ⟨?_, ?_, ?_⟩ <;> simp

theorem finalScores_props (tok : String → List String) (ratio : String → String → Nat)
    (fetch : String → FetchOutcome) (st : CNState) (text : String) :
    (∀ x ∈ (finalScores tok ratio fetch st text).map Prod.fst, x ∈ categoryNames) ∧
      ((finalScores tok ratio fetch st text).map Prod.fst).Nodup ∧
      (∀ x ∈ finalScores tok ratio fetch st text, 1 ≤ x.2) ∧
      finalScores tok ratio fetch st text ≠ [] := by
  unfold finalScores
  have hok := scoresOk_processTokens ratio fetch
    (tok (String.mk (pyLower text.data))) ⟨[], []⟩ st scoresOk_empty
  dsimp only
  split
  · refine ⟨?_, ?_, ?_, ?_⟩ <;> simp [bumpScore, others_mem_names]
  · next hne => exact ⟨hok.1, hok.2.1, hok.2.2, hne⟩

/-- The non-empty-text branch of `suggest_categories`, written through
`finalScores`. -/
theorem suggest_categories_eq (tok : String → List String)
    (ratio : String → String → Nat) (fetch : String → FetchOutcome) (st : CNState)
    (text : String) (topN : Nat) (h : ¬pyStrip text.data = []) :
    (suggest_categories tok ratio fetch st text topN).1 =
      finalLoop (processTokens ratio fetch (tok (String.mk (pyLower text.data)))
          ⟨[], []⟩ st).1.ev
        topN (rankScores (finalScores tok ratio fetch st text)) [] 0 := by
  simp only [suggest_categories, if_neg h, finalScores]

end Catagory

/-! ### Cache evolution (for the cache law and determinism claims) -/

namespace Catagory

/-- The canonical value a fresh fetch stores/returns for `w`: the labels on
success, `[]` on any failure. -/
def fetchVal (fetch : String → FetchOutcome) (w : String) : List String :=
  match fetch w with
  | .ok l => l
  | _ => []

/-- `st` extends `st0` along a run: every cached entry of `st0` is intact,
and every new entry holds exactly what fetching its key produces.  All cache
states reached from `st0` by `get_conceptnet_isas` calls satisfy this. -/
def Ext (fetch : String → FetchOutcome) (st0 st : CNState) : Prop :=
  ∀ w : String,
    (∀ l, alookup st0.cache w = some l → alookup st.cache w = some l) ∧
      (alookup st0.cache w = none →
        ∀ l, alookup st.cache w = some l → l = fetchVal fetch w)

theorem ext_refl (fetch : String → FetchOutcome) (st : CNState) : Ext fetch st st := by
  intro w
  refine ⟨fun l h => h, fun hn l h => ?_⟩
  rw [hn] at h
  cases h

theorem alookup_cacheInsert (m : List (String × List String)) (k : String)
    (v : List String) (k' : String) :
    alookup (cacheInsert m k v) k' = if k = k' then some v else alookup m k' := by
  induction m with
  | nil => simp [cacheInsert, alookup]
  | cons hd tl ih =>
    obtain ⟨k₀, v₀⟩ := hd
    by_cases h0 : k₀ = k
    · subst h0
      by_cases h1 : k₀ = k'
      · subst h1; simp [cacheInsert, alookup]
      · simp [cacheInsert, alookup, h1]
    · by_cases h1 : k₀ = k'
      · subst h1
        have : ¬k = k₀ := fun h => h0 h.symm
        simp [cacheInsert, alookup, h0, this]
      · simp only [cacheInsert, if_neg h0, alookup, if_neg h1]
        exact ih

theorem ext_get (fetch : String → FetchOutcome) {st0 st : CNState} (w : String)
    (hext : Ext fetch st0 st) :
    Ext fetch st0 (get_conceptnet_isas fetch st w).st := by
  unfold get_conceptnet_isas
  cases hhit : alookup st.cache w with
  | some l => exact hext
  | none =>
    cases hf : fetch w with
    | netFail => exact hext
    | badStatus =>
      intro w'
      refine ⟨?_, ?_⟩
      · intro l hl
        have := (hext w').1 l hl
        rw [alookup_cacheInsert]
        by_cases hw : w = w'
        · subst hw; rw [this] at hhit; cases hhit
        · rw [if_neg hw]; exact this
      · intro hn l hl
        rw [alookup_cacheInsert] at hl
        by_cases hw : w = w'
        · subst hw
          rw [if_pos rfl] at hl
          cases hl
          simp [fetchVal, hf]
        · rw [if_neg hw] at hl
          exact (hext w').2 hn l hl
    | ok isas =>
      intro w'
      refine ⟨?_, ?_⟩
      · intro l hl
        have := (hext w').1 l hl
        simp only
        rw [alookup_cacheInsert]
        by_cases hw : w = w'
        · subst hw; rw [this] at hhit; cases hhit
        · rw [if_neg hw]; exact this
      · intro hn l hl
        simp only at hl
        rw [alookup_cacheInsert] at hl
        by_cases hw : w = w'
        · subst hw
          rw [if_pos rfl] at hl
          cases hl
          simp [fetchVal, hf]
        · rw [if_neg hw] at hl
          exact (hext w').2 hn l hl

theorem ext_isas (fetch : String → FetchOutcome) {st0 st : CNState} (w : String)
    (hext : Ext fetch st0 st) :
    (get_conceptnet_isas fetch st w).isas =
      (match alookup st0.cache w with
       | some l => l
       | none => fetchVal fetch w) := by
  unfold get_conceptnet_isas
  cases hhit : alookup st.cache w with
  | some l =>
    cases h0 : alookup st0.cache w with
    | some l0 =>
      have := (hext w).1 l0 h0
      rw [this] at hhit
      cases hhit
      rfl
    | none =>
      have := (hext w).2 h0 l hhit
      simp [this]
  | none =>
    cases h0 : alookup st0.cache w with
    | some l0 =>
      have := (hext w).1 l0 h0
      rw [this] at hhit
      cases hhit
    | none =>
      cases hf : fetch w <;> simp [fetchVal, hf]

theorem ext_processToken (ratio : String → String → Nat) (fetch : String → FetchOutcome)
    {st0 st : CNState} (acc : ScoreAcc) (t : String) (hext : Ext fetch st0 st) :
    Ext fetch st0 (processToken ratio fetch acc st t).2 := by
  unfold processToken
  by_cases hm : tokenMatched ratio t
  · simpa [hm] using hext
  · simpa [hm] using ext_get fetch t hext

theorem processToken_acc_congr (ratio : String → String → Nat)
    (fetch : String → FetchOutcome) {st0 st st' : CNState} (acc : ScoreAcc) (t : String)
    (h1 : Ext fetch st0 st) (h2 : Ext fetch st0 st') :
    (processToken ratio fetch acc st t).1 = (processToken ratio fetch acc st' t).1 := by
  unfold processToken
  by_cases hm : tokenMatched ratio t
  · simp [hm]
  · simp only [hm, Bool.false_eq_true, if_false]
    rw [ext_isas fetch t h1, ext_isas fetch t h2]

theorem processTokens_congr (ratio : String → String → Nat)
    (fetch : String → FetchOutcome) (st0 : CNState) :
    ∀ (ts : List String) (acc : ScoreAcc) (st st' : CNState),
      Ext fetch st0 st → Ext fetch st0 st' →
      (processTokens ratio fetch ts acc st).1 = (processTokens ratio fetch ts acc st').1 ∧
        Ext fetch st0 (processTokens ratio fetch ts acc st).2 := by
  intro ts
  induction ts with
  | nil => intro acc st st' h1 _; exact ⟨rfl, h1⟩
  | cons t rest ih =>
    intro acc st st' h1 h2
    simp only [processTokens]
    have hacc := processToken_acc_congr ratio fetch acc t h1 h2
    have he1 := ext_processToken ratio fetch acc t h1
    have he2 := ext_processToken ratio fetch acc t h2
    rw [hacc]
    exact ih _ _ _ he1 he2

end Catagory

/-! ### Simple-variant lemmas -/

namespace Categorizer

theorem idxOf_eq_some_inj {names : List String} :
    ∀ {a b : String} {i : Nat}, idxOf names a = some i → idxOf names b = some i → a = b := by
  induction names with
  | nil => intro a b i ha _; simp [idxOf] at ha
  | cons n rest ih =>
    intro a b i ha hb
    by_cases hna : n = a
    · by_cases hnb : n = b
      · rw [← hna, ← hnb]
      · subst hna
        simp only [idxOf, if_pos rfl] at ha
        simp only [idxOf, if_neg hnb] at hb
        cases ha
        cases hj : idxOf rest b with
        | none => rw [hj] at hb; cases hb
        | some j => rw [hj] at hb; simp at hb
    · by_cases hnb : n = b
      · subst hnb
        simp only [idxOf, if_pos rfl] at hb
        simp only [idxOf, if_neg hna] at ha
        cases hb
        cases hj : idxOf rest a with
        | none => rw [hj] at ha; cases ha
        | some j => rw [hj] at ha; simp at ha
      · simp only [idxOf, if_neg hna] at ha
        simp only [idxOf, if_neg hnb] at hb
        cases hi : idxOf rest a with
        | none => rw [hi] at ha; cases ha
        | some ia =>
          rw [hi] at ha
          cases hj : idxOf rest b with
          | none => rw [hj] at hb; cases hb
          | some ib =>
            rw [hj] at hb
            simp only [Option.map_some', Option.some.injEq] at ha hb
            have : ia = ib := by omega
            subst this
            exact ih hi hj

theorem idxOf_eq_none_iff {names : List String} {c : String} :
    idxOf names c = none ↔ c ∉ names := by
  induction names with
  | nil => simp [idxOf]
  | cons n rest ih =>
    simp only [idxOf, List.mem_cons]
    by_cases hn : n = c
    · simp [hn]
    · simp only [if_neg hn]
      rw [Option.map_eq_none', ih]
      constructor
      · intro h hmem
        rcases hmem with rfl | hc
        · exact hn rfl
        · exact h hc
      · intro h hc
        exact h (Or.inr hc)

theorem resolveRanks_keys {names : List String} :
    ∀ {l : List (String × Nat)} {wr : List ((String × Nat) × Nat)},
      resolveRanks names l = .ok wr → wr.map Prod.fst = l := by
  intro l
  induction l with
  | nil => intro wr h; cases h; rfl
  | cons hd tl ih =>
    intro wr h
    obtain ⟨c, s⟩ := hd
    simp only [resolveRanks] at h
    cases hi : idxOf names c with
    | none => rw [hi] at h; cases h
    | some i =>
      rw [hi] at h
      cases hr : resolveRanks names tl with
      | error e => rw [hr] at h; cases h
      | ok wr' =>
        rw [hr] at h
        cases h
        simpa using ih hr

theorem resolveRanks_rank {names : List String} :
    ∀ {l : List (String × Nat)} {wr : List ((String × Nat) × Nat)},
      resolveRanks names l = .ok wr → ∀ p ∈ wr, idxOf names p.1.1 = some p.2 := by
  intro l
  induction l with
  | nil => intro wr h p hp; cases h; cases hp
  | cons hd tl ih =>
    intro wr h p hp
    obtain ⟨c, s⟩ := hd
    simp only [resolveRanks] at h
    cases hi : idxOf names c with
    | none => rw [hi] at h; cases h
    | some i =>
      rw [hi] at h
      cases hr : resolveRanks names tl with
      | error e => rw [hr] at h; cases h
      | ok wr' =>
        rw [hr] at h
        cases h
        rcases List.mem_cons.1 hp with rfl | hp
        · exact hi
        · exact ih hr p hp

theorem resolveRanks_error_of_mem {names : List String} {c : String} {v : Nat} :
    ∀ {l : List (String × Nat)}, (c, v) ∈ l → idxOf names c = none →
      resolveRanks names l = .error "ValueError" := by
  intro l
  induction l with
  | nil => intro h _; cases h
  | cons hd tl ih =>
    intro hmem hnone
    obtain ⟨c', s'⟩ := hd
    rcases List.mem_cons.1 hmem with heq | hmem'
    · cases heq
      simp [resolveRanks, hnone]
    · simp only [resolveRanks]
      cases hi : idxOf names c' with
      | none => rfl
      | some i => rw [ih hmem' hnone]; rfl

theorem resolveRanks_ok_of_subset {names : List String} :
    ∀ {l : List (String × Nat)}, (∀ x ∈ l.map Prod.fst, x ∈ names) →
      ∃ wr, resolveRanks names l = .ok wr := by
  intro l
  induction l with
  | nil => intro _; exact ⟨[], rfl⟩
  | cons hd tl ih =>
    intro h
    obtain ⟨c, s⟩ := hd
    have hc : c ∈ names := h c (by simp)
    cases hi : idxOf names c with
    | none => exact absurd hc (idxOf_eq_none_iff.1 hi)
    | some i =>
      obtain ⟨wr, hwr⟩ := ih (fun x hx => h x (List.mem_cons_of_mem _ hx))
      exact ⟨((c, s), i) :: wr, by simp [resolveRanks, hi, hwr, Except.map]⟩

end Categorizer

namespace Categorizer

/-- The well-formedness invariant for the simple variant's scores, relative
to a set of allowed names. -/
def SimpleOk (S : List String) (acc : ScoreAcc) : Prop :=
  (∀ x ∈ acc.scores.map Prod.fst, x ∈ S) ∧
    (acc.scores.map Prod.fst).Nodup ∧ (∀ x ∈ acc.scores, 1 ≤ x.2)

theorem simpleOk_keywordFold {S : List String} (textL : List Char) :
    ∀ (es : List (String × List String)) (acc : ScoreAcc),
      (∀ e ∈ es, ∀ c ∈ e.2, c ∈ S) → SimpleOk S acc →
      SimpleOk S (es.foldl
        (fun acc e =>
          if strContains textL e.1.data then
            applyContribs acc (e.2.map (fun c => (c, 3, e.1)))
          else acc) acc) := by
  intro es
  induction es with
  | nil => intro acc _ hacc; exact hacc
  | cons e rest ih =>
    intro acc hvals hacc
    simp only [List.foldl_cons]
    refine ih _ (fun e' he' => hvals e' (List.mem_cons_of_mem _ he')) ?_
    by_cases h : strContains textL e.1.data
    · rw [if_pos h]
      have hcs : ∀ x ∈ e.2.map (fun c => (c, 3, e.1)), x.1 ∈ S ∧ 1 ≤ x.2.1 := by
        intro x hx
        simp only [List.mem_map] at hx
        obtain ⟨c, hc, rfl⟩ := hx
        exact ⟨hvals e (by simp) c hc, by norm_num⟩
      exact ⟨keys_subset_applyContribs hacc.1 (fun x hx => (hcs x hx).1),
        nodup_keys_applyContribs hacc.2.1,
        pos_applyContribs hacc.2.2 (fun x hx => (hcs x hx).2)⟩
    · rwa [if_neg h]

theorem simpleOk_keywordPass {reg : List Cat} {textL : List Char}
    (hvals : ∀ e ∈ keywordIndex reg, ∀ c ∈ e.2, c ∈ categoryNames reg) :
    SimpleOk (categoryNames reg) (keywordPass reg textL) := by
  refine simpleOk_keywordFold textL _ _ hvals ?_
  refine ⟨?_, ?_, ?_⟩ <;> simp

theorem simpleOk_bumpScore {S : List String} {acc : ScoreAcc} {c : String} {w : Nat}
    (hacc : SimpleOk S acc) (hc : c ∈ S) (hw : 1 ≤ w) :
    SimpleOk S ⟨bumpScore acc.scores c w, acc.ev⟩ := by
  refine ⟨?_, nodup_keys_bumpScore hacc.2.1, pos_of_bumpScore hacc.2.2 hw⟩
  intro x hx
  rcases mem_keys_bumpScore.1 hx with hx | rfl
  · exact hacc.1 x hx
  · exact hc

theorem simpleOk_regexPass {S : List String} {acc : ScoreAcc} {textL : List Char}
    (hacc : SimpleOk S acc) (h1 : "Children & Education" ∈ S) (h2 : "Home & Rent" ∈ S) :
    SimpleOk S (regexPass acc textL) := by
  unfold regexPass
  by_cases he : hasWordIn eduWords textL <;> by_cases hr : hasWordIn rentWords textL <;>
    simp only [he, hr, if_true, if_false, Bool.false_eq_true] <;>
    first
      | exact simpleOk_bumpScore (simpleOk_bumpScore hacc h1 (by norm_num)) h2 (by norm_num)
      | exact simpleOk_bumpScore hacc h1 (by norm_num)
      | exact simpleOk_bumpScore hacc h2 (by norm_num)
      | exact hacc

theorem simpleOk_amountPass {S : List String} {acc : ScoreAcc} {textL : List Char}
    (hacc : SimpleOk S acc) (h1 : "Home & Rent" ∈ S) (h2 : "Investment & Savings" ∈ S) :
    SimpleOk S (amountPass acc textL) := by
  unfold amountPass
  cases findBareAmount textL with
  | none => exact hacc
  | some amt =>
    by_cases h : 5000 < amt
    · simp only [if_pos h]
      exact simpleOk_bumpScore (simpleOk_bumpScore hacc h1 (by norm_num)) h2 (by norm_num)
    · simp only [if_neg h]
      exact hacc

set_option maxRecDepth 100000

/-- Decidable check: the keyword index of the built-in registry only maps to
built-in names. -/
theorem defaultData_index_ok :
    ∀ e ∈ keywordIndex defaultData, ∀ c ∈ e.2, c ∈ categoryNames defaultData := by
  decide

theorem defaultData_heuristic_names :
    "Children & Education" ∈ categoryNames defaultData ∧
      "Home & Rent" ∈ categoryNames defaultData ∧
      "Investment & Savings" ∈ categoryNames defaultData ∧
      "Other" ∈ categoryNames defaultData := by
  decide

theorem simpleOk_heuristicAcc_default (textL : List Char) :
    SimpleOk (categoryNames defaultData) (heuristicAcc defaultData textL) := by
  unfold heuristicAcc
  exact simpleOk_amountPass
    (simpleOk_regexPass (simpleOk_keywordPass defaultData_index_ok)
      defaultData_heuristic_names.1 defaultData_heuristic_names.2.1)
    defaultData_heuristic_names.2.1 defaultData_heuristic_names.2.2.1

/-- `Nodup` of the scored keys, over an arbitrary registry. -/
theorem nodup_keys_keywordFold (textL : List Char) :
    ∀ (es : List (String × List String)) (acc : ScoreAcc),
      (acc.scores.map Prod.fst).Nodup →
      ((es.foldl
        (fun acc e =>
          if strContains textL e.1.data then
            applyContribs acc (e.2.map (fun c => (c, 3, e.1)))
          else acc) acc).scores.map Prod.fst).Nodup := by
  intro es
  induction es with
  | nil => intro acc hacc; exact hacc
  | cons e rest ih =>
    intro acc hacc
    simp only [List.foldl_cons]
    refine ih _ ?_
    by_cases h : strContains textL e.1.data
    · rw [if_pos h]; exact nodup_keys_applyContribs hacc
    · rwa [if_neg h]

theorem nodup_keys_heuristicAcc (reg : List Cat) (textL : List Char) :
    ((heuristicAcc reg textL).scores.map Prod.fst).Nodup := by
  have h0 : ((keywordPass reg textL).scores.map Prod.fst).Nodup := by
    refine nodup_keys_keywordFold textL _ _ ?_
    simp
  have h1 : ((regexPass (keywordPass reg textL) textL).scores.map Prod.fst).Nodup := by
    unfold regexPass
    by_cases he : hasWordIn eduWords textL <;> by_cases hr : hasWordIn rentWords textL <;>
      simp only [he, hr, if_true, if_false, Bool.false_eq_true] <;>
      first
        | exact nodup_keys_bumpScore (nodup_keys_bumpScore h0)
        | exact nodup_keys_bumpScore h0
        | exact h0
  unfold heuristicAcc amountPass
  cases findBareAmount textL with
  | none => exact h1
  | some amt =>
    by_cases h : 5000 < amt
    · simp only [if_pos h]
      exact nodup_keys_bumpScore (nodup_keys_bumpScore h1)
    · simp only [if_neg h]
      exact h1

end Categorizer

/-! ## Whitespace-only texts -/

theorem pyLowerChar_of_space {c : Char} (h : isPySpace c = true) : pyLowerChar c = c := by
  simp only [isPySpace, Bool.or_eq_true, decide_eq_true_eq] at h
  rcases h with ((((rfl | rfl) | rfl) | rfl) | rfl) | rfl <;> decide

theorem not_digit_of_space {c : Char} (h : isPySpace c = true) : c.isDigit = false := by
  simp only [isPySpace, Bool.or_eq_true, decide_eq_true_eq] at h
  rcases h with ((((rfl | rfl) | rfl) | rfl) | rfl) | rfl <;> decide

theorem pyLower_of_all_space {cs : List Char} (h : cs.all isPySpace = true) :
    pyLower cs = cs := by
  induction cs with
  | nil => rfl
  | cons c rest ih =>
    simp only [List.all_cons, Bool.and_eq_true] at h
    simp only [pyLower, List.map_cons]
    rw [pyLowerChar_of_space h.1]
    exact congrArg (c :: ·) (ih h.2)

theorem isPrefixList_subset : ∀ {needle hay : List Char},
    isPrefixList needle hay = true → ∀ c ∈ needle, c ∈ hay := by
  intro needle
  induction needle with
  | nil => intro hay _ c hc; cases hc
  | cons a as ih =>
    intro hay h c hc
    cases hay with
    | nil => simp [isPrefixList] at h
    | cons b bs =>
      simp only [isPrefixList, Bool.and_eq_true, beq_iff_eq] at h
      rcases List.mem_cons.1 hc with rfl | hc
      · rw [h.1]; simp
      · exact List.mem_cons_of_mem _ (ih h.2 c hc)

theorem strContains_subset : ∀ {hay needle : List Char},
    strContains hay needle = true → ∀ c ∈ needle, c ∈ hay := by
  intro hay
  induction hay with
  | nil =>
    intro needle h c hc
    unfold strContains at h
    simp only [Bool.or_false] at h
    exact absurd hc (by
      have := isPrefixList_subset h c hc
      cases this)
  | cons b bs ih =>
    intro needle h c hc
    unfold strContains at h
    simp only [Bool.or_eq_true] at h
    rcases h with h | h
    · exact isPrefixList_subset h c hc
    · exact List.mem_cons_of_mem _ (ih h c hc)

theorem strContains_false_of_space {hay needle : List Char}
    (hsp : hay.all isPySpace = true) (hn : needle.any (fun c => !isPySpace c) = true) :
    strContains hay needle = false := by
  by_contra h
  rw [Bool.not_eq_false] at h
  simp only [List.any_eq_true, Bool.not_eq_true'] at hn
  obtain ⟨c, hc, hcsp⟩ := hn
  have := strContains_subset h c hc
  rw [List.all_eq_true] at hsp
  rw [hsp c this] at hcsp
  cases hcsp

theorem wordAt_false_of_space {cs w : List Char} (i : Nat)
    (hsp : cs.all isPySpace = true) (hw : w.any (fun c => !isPySpace c) = true) :
    wordAt cs w i = false := by
  by_contra h
  rw [Bool.not_eq_false] at h
  have h1 : ((cs.drop i).take w.length == w) = true := by
    unfold wordAt at h
    simp only [Bool.and_eq_true] at h
    exact h.1.1
  have heq : (cs.drop i).take w.length = w := by
    exact eq_of_beq h1
  simp only [List.any_eq_true, Bool.not_eq_true'] at hw
  obtain ⟨c, hc, hcsp⟩ := hw
  rw [← heq] at hc
  have : c ∈ cs := List.drop_subset i cs (List.take_subset _ _ hc)
  rw [List.all_eq_true] at hsp
  rw [hsp c this] at hcsp
  cases hcsp

theorem hasWordIn_false_of_space {cs : List Char} {ws : List (List Char)}
    (hsp : cs.all isPySpace = true)
    (hw : ∀ w ∈ ws, w.any (fun c => !isPySpace c) = true) :
    hasWordIn ws cs = false := by
  unfold hasWordIn
  rw [Bool.eq_false_iff]
  intro h
  simp only [List.any_eq_true] at h
  obtain ⟨i, _, w, hwmem, hat⟩ := h
  rw [wordAt_false_of_space i hsp (hw w hwmem)] at hat
  cases hat

theorem findBareAmountGo_none_of_space : ∀ {cs : List Char} (prev : Option Char),
    cs.all isPySpace = true → findBareAmountGo prev cs = none := by
  intro cs
  induction cs with
  | nil => intro prev _; rfl
  | cons c rest ih =>
    intro prev h
    simp only [List.all_cons, Bool.and_eq_true] at h
    unfold findBareAmountGo
    rw [not_digit_of_space h.1]
    simp only [Bool.false_and, Bool.false_eq_true, if_false]
    exact ih _ h.2

theorem all_space_of_all_space_pyLower {cs : List Char} (h : cs.all isPySpace = true) :
    (pyLower cs).all isPySpace = true := by
  rw [pyLower_of_all_space h]; exact h

theorem pyStrip_of_all_space {cs : List Char} (h : cs.all isPySpace = true) :
    pyStrip cs = [] := by
  unfold pyStrip
  have : cs.dropWhile isPySpace = [] := by
    induction cs with
    | nil => rfl
    | cons c rest ih =>
      simp only [List.all_cons, Bool.and_eq_true] at h
      rw [List.dropWhile_cons_of_pos h.1]
      exact ih h.2
  rw [this]
  rfl

namespace Categorizer

theorem keywordFold_id {textL : List Char} :
    ∀ (es : List (String × List String)) (acc : ScoreAcc),
      (∀ e ∈ es, strContains textL e.1.data = false) →
      es.foldl
        (fun acc e =>
          if strContains textL e.1.data then
            applyContribs acc (e.2.map (fun c => (c, 3, e.1)))
          else acc) acc = acc := by
  intro es
  induction es with
  | nil => intro acc _; rfl
  | cons e rest ih =>
    intro acc h
    simp only [List.foldl_cons, h e (by simp), Bool.false_eq_true, if_false]
    exact ih acc (fun e' he' => h e' (List.mem_cons_of_mem _ he'))

set_option maxRecDepth 100000

/-- Every keyword of the built-in index contains a non-whitespace character. -/
theorem defaultData_keywords_nonspace :
    ∀ e ∈ keywordIndex defaultData, e.1.data.any (fun c => !isPySpace c) = true := by
  decide

theorem heuristic_words_nonspace :
    (∀ w ∈ eduWords, w.any (fun c => !isPySpace c) = true) ∧
      (∀ w ∈ rentWords, w.any (fun c => !isPySpace c) = true) := by
  decide

/-- On whitespace-only text no pass fires: the accumulator stays empty. -/
theorem heuristicAcc_of_space {textL : List Char} (hsp : textL.all isPySpace = true) :
    heuristicAcc defaultData textL = ⟨[], []⟩ := by
  unfold heuristicAcc
  have h0 : keywordPass defaultData textL = ⟨[], []⟩ := by
    unfold keywordPass
    exact keywordFold_id _ _ (fun e he =>
      strContains_false_of_space hsp (defaultData_keywords_nonspace e he))
  have h1 : regexPass (keywordPass defaultData textL) textL = ⟨[], []⟩ := by
    unfold regexPass
    rw [h0, hasWordIn_false_of_space hsp heuristic_words_nonspace.1,
      hasWordIn_false_of_space hsp heuristic_words_nonspace.2]
    rfl
  unfold amountPass
  rw [h1]
  unfold findBareAmount at *
  rw [findBareAmountGo_none_of_space none hsp]

end Categorizer

namespace Categorizer

/-- The scores list the simple variant actually ranks (with the `Other`
fallback applied). -/
def finalScores (reg : List Cat) (text : String) : List (String × Nat) :=
  let acc := heuristicAcc reg (pyLower text.data)
  if acc.scores = [] then [("Other", 1)] else acc.scores

/-- `suggest_categories` unfolded through `finalScores`. -/
theorem suggest_categories_def (reg : List Cat) (text : String) (topN : Nat) :
    suggest_categories reg text topN =
      (match resolveRanks (categoryNames reg) (finalScores reg text) with
       | .error e => .error e
       | .ok withRanks =>
         .ok (((withRanks.insertionSort (rkLE (fun p => p.1.2) Prod.snd)).take topN).map
           (fun p => ⟨p.1.1, p.1.2, emojiOf reg p.1.1,
             explanationOf (heuristicAcc reg (pyLower text.data)).ev p.1.1⟩))) := rfl

theorem mem_finalScores_of_mem {reg : List Cat} {text : String} {c : String}
    (h : c ∈ (heuristicAcc reg (pyLower text.data)).scores.map Prod.fst) :
    c ∈ (finalScores reg text).map Prod.fst := by
  unfold finalScores
  have hne : (heuristicAcc reg (pyLower text.data)).scores ≠ [] := by
    intro hnil
    rw [hnil] at h
    cases h
  simp only [if_neg hne]
  exact h

theorem suggest_error_of_missing {reg : List Cat} {text : String} (topN : Nat)
    {c : String} (hmem : c ∈ (finalScores reg text).map Prod.fst)
    (hns : c ∉ categoryNames reg) :
    suggest_categories reg text topN = .error "ValueError" := by
  rw [suggest_categories_def]
  obtain ⟨⟨c', v⟩, hcv, rfl⟩ := List.mem_map.1 hmem
  rw [resolveRanks_error_of_mem hcv (idxOf_eq_none_iff.2 hns)]

/-- `Children & Education` is scored whenever the education regex fires. -/
theorem eduKey_mem_heuristicAcc (reg : List Cat) {textL : List Char}
    (h : hasWordIn eduWords textL = true) :
    "Children & Education" ∈ (heuristicAcc reg textL).scores.map Prod.fst := by
  unfold heuristicAcc amountPass regexPass
  rw [h]
  simp only [if_true]
  have hmem : "Children & Education" ∈
      (bumpScore (keywordPass reg textL).scores "Children & Education" 2).map Prod.fst :=
    mem_keys_bumpScore.2 (Or.inr rfl)
  have hmem2 : "Children & Education" ∈
      (if hasWordIn rentWords textL = true then
        (⟨bumpScore (bumpScore (keywordPass reg textL).scores "Children & Education" 2)
            "Home & Rent" 2, (keywordPass reg textL).ev⟩ : ScoreAcc)
      else ⟨bumpScore (keywordPass reg textL).scores "Children & Education" 2,
            (keywordPass reg textL).ev⟩).scores.map Prod.fst := by
    split
    · exact mem_keys_bumpScore.2 (Or.inl hmem)
    · exact hmem
  split
  · next amt hamt =>
    split
    · exact mem_keys_bumpScore.2 (Or.inl (mem_keys_bumpScore.2 (Or.inl (by
        revert hmem2
        split <;> intro h2 <;> simpa using h2))))
    · revert hmem2
      split <;> intro h2 <;> simpa using h2
  · revert hmem2
    split <;> intro h2 <;> simpa using h2

end Categorizer

namespace Categorizer

theorem mem_keys_amountPass {acc : ScoreAcc} {textL : List Char} {c : String}
    (h : c ∈ acc.scores.map Prod.fst) : c ∈ (amountPass acc textL).scores.map Prod.fst := by
  unfold amountPass
  split
  · split
    · exact mem_keys_bumpScore.2 (Or.inl (mem_keys_bumpScore.2 (Or.inl h)))
    · exact h
  · exact h

theorem rentKey_mem_heuristicAcc (reg : List Cat) {textL : List Char}
    (h : hasWordIn rentWords textL = true) :
    "Home & Rent" ∈ (heuristicAcc reg textL).scores.map Prod.fst := by
  unfold heuristicAcc
  refine mem_keys_amountPass ?_
  unfold regexPass
  rw [h]
  simp only [if_true]
  exact mem_keys_bumpScore.2 (Or.inr rfl)

theorem investKey_mem_heuristicAcc (reg : List Cat) {textL : List Char} {amt : Nat}
    (hamt : findBareAmount textL = some amt) (h5 : 5000 < amt) :
    "Investment & Savings" ∈ (heuristicAcc reg textL).scores.map Prod.fst := by
  unfold heuristicAcc amountPass
  rw [hamt]
  simp only [if_pos h5]
  exact mem_keys_bumpScore.2 (Or.inr rfl)

/-- The `+1` amount heuristic, stated against the scores before it runs. -/
theorem amountPass_adds_one {acc : ScoreAcc} {textL : List Char} {amt : Nat}
    (hamt : findBareAmount textL = some amt) (h5 : 5000 < amt) :
    scoreOf (amountPass acc textL).scores "Home & Rent" =
        scoreOf acc.scores "Home & Rent" + 1 ∧
      scoreOf (amountPass acc textL).scores "Investment & Savings" =
        scoreOf acc.scores "Investment & Savings" + 1 ∧
      ∀ c, c ≠ "Home & Rent" → c ≠ "Investment & Savings" →
        scoreOf (amountPass acc textL).scores c = scoreOf acc.scores c := by
  unfold amountPass
  rw [hamt]
  simp only [if_pos h5]
  refine ⟨?_, ?_, ?_⟩
  · rw [scoreOf_bumpScore_ne _ _ (by decide), scoreOf_bumpScore_same]
  · rw [scoreOf_bumpScore_same, scoreOf_bumpScore_ne _ _ (by decide)]
  · intro c h1 h2
    rw [scoreOf_bumpScore_ne _ _ h2, scoreOf_bumpScore_ne _ _ h1]

end Categorizer

/-! ## Claim theorems -/

/-- C4 counterexample: `add_custom_category` has no duplicate check.  Adding
the already-present name `"Other"` does not fail and does not leave the
registry unchanged: the registry afterwards contains `"Other"` twice. -/
theorem c4_counterexample :
    ((Categorizer.add_custom_category Categorizer.defaultData "Other" "🔖" []).1.map
        (·.name)).count "Other" = 2 ∧
      (Categorizer.add_custom_category Categorizer.defaultData "Other" "🔖" []).1 ≠
        Categorizer.defaultData := by
  decide

/-- C4 (amended): `add_custom_category` never raises and performs no
duplicate check: for every name, present or not, it appends the category to
the registry, extends the name list, extends the derived keyword index by
exactly the new category's lower-cased keywords, and persists the whole
resulting registry (duplicates included) to the override file. -/
theorem c4_add_custom_category (reg : List Categorizer.Cat) (name emoji : String)
    (keywords : List String) :
    (Categorizer.add_custom_category reg name emoji keywords).1 =
        reg ++ [⟨name, emoji, keywords⟩] ∧
      (Categorizer.add_custom_category reg name emoji keywords).2 =
        (Categorizer.add_custom_category reg name emoji keywords).1 ∧
      Categorizer.categoryNames (Categorizer.add_custom_category reg name emoji keywords).1 =
        Categorizer.categoryNames reg ++ [name] ∧
      Categorizer.keywordIndex (Categorizer.add_custom_category reg name emoji keywords).1 =
        keywords.foldl (fun m kw => addKw m (String.mk (pyLower kw.data)) name)
          (Categorizer.keywordIndex reg) := by
  refine ⟨rfl, rfl, ?_, ?_⟩
  · simp [Categorizer.add_custom_category, Categorizer.categoryNames]
  · simp [Categorizer.add_custom_category, Categorizer.keywordIndex, buildIndex,
      List.map_append, List.foldl_append]

/-- C5 counterexample: after a lookup whose external call raises
(`netFail`), nothing is stored: a second lookup for the same term performs
the external call again, contradicting the claimed cache law. -/
theorem c5_counterexample :
    (Catagory.get_conceptnet_isas (fun _ => Catagory.FetchOutcome.netFail)
          (Catagory.get_conceptnet_isas (fun _ => Catagory.FetchOutcome.netFail)
            ⟨[], []⟩ "tea").st "tea").called = true ∧
      (Catagory.get_conceptnet_isas (fun _ => Catagory.FetchOutcome.netFail)
          ⟨[], []⟩ "tea").st = ⟨[], []⟩ := by
  constructor <;> rfl

/-- C5 (amended): the cache law holds exactly for lookups whose external
call does not raise.  After a successful (200) fetch the result is stored
and the whole cache is persisted to the file; after a non-200 status the
empty result is stored in memory but the file is *not* rewritten; in both
of those cases a repeat lookup performs no external call and returns the
same neighbours.  After a raised exception nothing is stored and a repeat
lookup calls the service again. -/
theorem c5_cache_law (fetch : String → Catagory.FetchOutcome) (st : Catagory.CNState)
    (w : String) :
    (fetch w ≠ Catagory.FetchOutcome.netFail →
      (Catagory.get_conceptnet_isas fetch
          (Catagory.get_conceptnet_isas fetch st w).st w).called = false ∧
        (Catagory.get_conceptnet_isas fetch
            (Catagory.get_conceptnet_isas fetch st w).st w).isas =
          (Catagory.get_conceptnet_isas fetch st w).isas) ∧
      (∀ isas, alookup st.cache w = none → fetch w = Catagory.FetchOutcome.ok isas →
        (Catagory.get_conceptnet_isas fetch st w).st.file =
          (Catagory.get_conceptnet_isas fetch st w).st.cache) ∧
      (alookup st.cache w = none → fetch w = Catagory.FetchOutcome.badStatus →
        (Catagory.get_conceptnet_isas fetch st w).st.file = st.file ∧
          alookup (Catagory.get_conceptnet_isas fetch st w).st.cache w = some []) ∧
      (alookup st.cache w = none → fetch w = Catagory.FetchOutcome.netFail →
        (Catagory.get_conceptnet_isas fetch st w).st = st ∧
          (Catagory.get_conceptnet_isas fetch
              (Catagory.get_conceptnet_isas fetch st w).st w).called = true) := by
  refine ⟨?_, ?_, ?_, ?_⟩
  · intro hnf
    unfold Catagory.get_conceptnet_isas
    cases hhit : alookup st.cache w with
    | some l => simp [hhit]
    | none =>
      cases hf : fetch w with
      | netFail => exact absurd hf hnf
      | badStatus => simp [hhit, hf, Catagory.alookup_cacheInsert]
      | ok isas => simp [hhit, hf, Catagory.alookup_cacheInsert]
  · intro isas hmiss hf
    unfold Catagory.get_conceptnet_isas
    simp [hmiss, hf]
  · intro hmiss hf
    unfold Catagory.get_conceptnet_isas
    simp [hmiss, hf, Catagory.alookup_cacheInsert]
  · intro hmiss hf
    unfold Catagory.get_conceptnet_isas
    simp [hmiss, hf]

/-- C5 witness: the amended cache law at a concrete successful fetch. -/
theorem c5_cache_law_witness :
    (Catagory.get_conceptnet_isas (fun _ => Catagory.FetchOutcome.ok ["drink"])
        (Catagory.get_conceptnet_isas (fun _ => Catagory.FetchOutcome.ok ["drink"])
          ⟨[], []⟩ "tea").st "tea").called = false ∧
      (Catagory.get_conceptnet_isas (fun _ => Catagory.FetchOutcome.ok ["drink"])
          (Catagory.get_conceptnet_isas (fun _ => Catagory.FetchOutcome.ok ["drink"])
            ⟨[], []⟩ "tea").st "tea").isas =
        (Catagory.get_conceptnet_isas (fun _ => Catagory.FetchOutcome.ok ["drink"])
          ⟨[], []⟩ "tea").isas :=
  (c5_cache_law (fun _ => Catagory.FetchOutcome.ok ["drink"]) ⟨[], []⟩ "tea").1
    (by decide)

/-- C6 counterexample: on text with no currency-marked number the spec's
`extract_amount` is absent (`none`) but the code returns the number `0.0` —
a present numeric sentinel, not an absent result. -/
theorem c6_counterexample :
    Catagory.extractAmountSpec "lunch with friends" = none ∧
      Catagory.extract_amount "lunch with friends" = 0 := by
  constructor <;> rfl

/-- C6 (amended): `extract_amount` scans for currency-marked 2–8 digit
numbers and returns the value of the last match; when no candidate is found
it returns `0.0` (a numeric sentinel) rather than an absent result. -/
theorem c6_extract_amount :
    (∀ s : String, Catagory.findAllAmounts s = [] → Catagory.extract_amount s = 0) ∧
      (∀ (s : String) (l : List Nat) (a : Nat),
        Catagory.findAllAmounts s = l ++ [a] → Catagory.extract_amount s = a) ∧
      Catagory.extract_amount "Paid Rs 120 and Rs. 75 and INR 4500 done" = 4500 ∧
      Catagory.extract_amount "paid 7500 for rent" = 0 ∧
      Catagory.extract_amount "₹123456789" = 12345678 := by
  refine ⟨?_, ?_, rfl, rfl, rfl⟩
  · intro s h
    unfold Catagory.extract_amount
    rw [h]
    rfl
  · intro s l a h
    unfold Catagory.extract_amount
    rw [h]
    simp

/-- C6 witness: the amended behaviour at concrete inputs. -/
theorem c6_extract_amount_witness :
    Catagory.extract_amount "no numbers here" = 0 ∧
      Catagory.extract_amount "Rs 10 Rs 20" = 20 :=
  ⟨c6_extract_amount.1 "no numbers here" rfl,
   c6_extract_amount.2.1 "Rs 10 Rs 20" [10] 20 rfl⟩

namespace Categorizer

theorem finalScores_nodup (reg : List Cat) (text : String) :
    ((finalScores reg text).map Prod.fst).Nodup := by
  unfold finalScores
  dsimp only
  split
  · simp
  · exact nodup_keys_heuristicAcc reg (pyLower text.data)

theorem finalScores_default_subset (text : String) :
    ∀ x ∈ (finalScores defaultData text).map Prod.fst, x ∈ categoryNames defaultData := by
  unfold finalScores
  dsimp only
  split
  · intro x hx
    simp only [List.map_cons, List.map_nil, List.mem_singleton] at hx
    subst hx
    exact defaultData_heuristic_names.2.2.2
  · exact (simpleOk_heuristicAcc_default (pyLower text.data)).1

set_option maxRecDepth 100000

/-- Base keys are injective on the built-in category names. -/
theorem defaultData_baseKey_inj :
    ∀ a ∈ categoryNames defaultData, ∀ b ∈ categoryNames defaultData,
      Catagory.baseKey a = Catagory.baseKey b → a = b := by
  decide

end Categorizer

/-- C2 counterexample: with `top_n = 0` the advanced `suggest_categories`
still returns one suggestion (the length check runs only after the first
append), so "at most `top_n` entries" fails for `top_n = 0`. -/
theorem c2_counterexample :
    (Catagory.suggest_categories (fun _ => []) (fun _ _ => 0)
        (fun _ => Catagory.FetchOutcome.netFail) ⟨[], []⟩ "" 0).1.length = 1 := by
  rfl

/-- C2 (amended): for every `top_n ≥ 1` the advanced variant returns at
most `top_n` suggestions, and (for every `top_n`) the returned base-category
keys are pairwise distinct; for `top_n = 0` it can still return one entry.
The simple variant truncates with a list slice, so its output length is at
most `top_n` for every `top_n`, and under the built-in registry its outputs
carry pairwise distinct base keys as well. -/
theorem c2_topn_and_base_keys :
    (∀ (tok : String → List String) (ratio : String → String → Nat)
        (fetch : String → Catagory.FetchOutcome) (st : Catagory.CNState)
        (text : String) (topN : Nat),
      (1 ≤ topN →
        (Catagory.suggest_categories tok ratio fetch st text topN).1.length ≤ topN) ∧
        ((Catagory.suggest_categories tok ratio fetch st text topN).1.map
          (fun s => Catagory.baseKey s.category)).Nodup) ∧
      ∀ (text : String) (topN : Nat) (out : List Categorizer.Suggestion),
        Categorizer.suggest_categories Categorizer.defaultData text topN = .ok out →
        out.length ≤ topN ∧
          (out.map (fun s => Catagory.baseKey s.category)).Nodup := by
  constructor
  · intro tok ratio fetch st text topN
    by_cases hemp : pyStrip text.data = []
    · constructor
      · intro h1
        simp only [Catagory.suggest_categories, if_pos hemp, List.length_singleton]
        omega
      · simp [Catagory.suggest_categories, hemp]
    · rw [Catagory.suggest_categories_eq tok ratio fetch st text topN hemp]
      constructor
      · intro h1
        refine le_trans (Catagory.finalLoop_length _ topN _ [] 0 (by omega)) (by omega)
      · exact (Catagory.finalLoop_baseKeys _ topN _ [] 0).1
  · intro text topN out hout
    rw [Categorizer.suggest_categories_def] at hout
    cases hr : Categorizer.resolveRanks (Categorizer.categoryNames Categorizer.defaultData)
        (Categorizer.finalScores Categorizer.defaultData text) with
    | error e => rw [hr] at hout; cases hout
    | ok wr =>
      rw [hr] at hout
      cases hout
      have hperm := List.perm_insertionSort (rkLE (fun p => p.1.2) Prod.snd) wr
      have hkeys := Categorizer.resolveRanks_keys hr
      constructor
      · simp only [List.length_map]
        exact List.length_take_le topN _
      · -- categories of the output are distinct and drawn from the registry,
        -- whose names have pairwise distinct base keys
        have hnodup_wr : (wr.map (fun p => p.1.1)).Nodup := by
          have heq : wr.map (fun p => p.1.1) =
              (Categorizer.finalScores Categorizer.defaultData text).map Prod.fst := by
            rw [← hkeys, List.map_map]
            rfl
          rw [heq]
          exact Categorizer.finalScores_nodup _ _
        have hnodup_sorted :
            ((wr.insertionSort (rkLE (fun p => p.1.2) Prod.snd)).map
              (fun p => p.1.1)).Nodup :=
          ((hperm.map (fun p => p.1.1)).symm).nodup hnodup_wr
        have hnodup_take :
            (((wr.insertionSort (rkLE (fun p => p.1.2) Prod.snd)).take topN).map
              (fun p => p.1.1)).Nodup :=
          hnodup_sorted.sublist ((List.take_sublist _ _).map _)
        have hsub : ∀ p ∈ (wr.insertionSort (rkLE (fun p => p.1.2) Prod.snd)).take topN,
            p.1.1 ∈ Categorizer.categoryNames Categorizer.defaultData := by
          intro p hp
          have hp2 : p ∈ wr := hperm.subset (List.take_subset _ _ hp)
          refine Categorizer.finalScores_default_subset text _ ?_
          rw [← hkeys]
          exact List.mem_map_of_mem _ (List.mem_map_of_mem _ hp2)
        have hinj : ∀ x ∈ ((wr.insertionSort (rkLE (fun p => p.1.2) Prod.snd)).take topN).map
              (fun p => p.1.1),
            ∀ y ∈ ((wr.insertionSort (rkLE (fun p => p.1.2) Prod.snd)).take topN).map
              (fun p => p.1.1),
            Catagory.baseKey x = Catagory.baseKey y → x = y := by
          intro x hx y hy hxy
          obtain ⟨p, hp, rfl⟩ := List.mem_map.1 hx
          obtain ⟨q, hq, rfl⟩ := List.mem_map.1 hy
          exact Categorizer.defaultData_baseKey_inj _ (hsub p hp) _ (hsub q hq) hxy
        have := List.Nodup.map_on hinj hnodup_take
        simpa [List.map_map] using this

/-- C2 witness: the amended statement at concrete inputs. -/
theorem c2_topn_and_base_keys_witness :
    ((Catagory.suggest_categories (fun _ => ["rent"]) (fun _ _ => 0)
          (fun _ => Catagory.FetchOutcome.netFail) ⟨[], []⟩ "rent" 1).1.length ≤ 1) ∧
      ((Categorizer.suggest_categories Categorizer.defaultData "rent" 3 =
          Except.ok [⟨"Home & Rent", 5, "🏠", "Matched keywords: rent"⟩]) →
        ([(⟨"Home & Rent", 5, "🏠", "Matched keywords: rent"⟩ :
            Categorizer.Suggestion)].length ≤ 3)) :=
  ⟨(c2_topn_and_base_keys.1 (fun _ => ["rent"]) (fun _ _ => 0)
      (fun _ => Catagory.FetchOutcome.netFail) ⟨[], []⟩ "rent" 1).1 (by decide),
   fun h => (c2_topn_and_base_keys.2 "rent" 3 _ h).1⟩

set_option maxRecDepth 1000000

/-- C3: on empty or whitespace-only text both variants return exactly one
fallback suggestion with score 1 and the no-match placeholder explanation:
the advanced variant always returns `("Others", 1, "Empty line")` (leaving
the cache untouched), and the simple variant returns
`("Other", 1, "🔖", "No strong keyword match.")` whenever at least one
suggestion is requested. -/
theorem c3_empty_text (text : String) (hsp : text.data.all isPySpace = true) :
    (∀ (tok : String → List String) (ratio : String → String → Nat)
        (fetch : String → Catagory.FetchOutcome) (st : Catagory.CNState) (topN : Nat),
      Catagory.suggest_categories tok ratio fetch st text topN =
        ([⟨"Others", 1, "Empty line"⟩], st)) ∧
      ∀ topN : Nat, 1 ≤ topN →
        Categorizer.suggest_categories Categorizer.defaultData text topN =
          .ok [⟨"Other", 1, "🔖", "No strong keyword match."⟩] := by
  constructor
  · intro tok ratio fetch st topN
    simp [Catagory.suggest_categories, pyStrip_of_all_space hsp]
  · intro topN htop
    have hsp2 : (pyLower text.data).all isPySpace = true := by
      rw [pyLower_of_all_space hsp]; exact hsp
    have hacc : Categorizer.heuristicAcc Categorizer.defaultData (pyLower text.data) =
        ⟨[], []⟩ := Categorizer.heuristicAcc_of_space hsp2
    have hfs : Categorizer.finalScores Categorizer.defaultData text = [("Other", 1)] := by
      unfold Categorizer.finalScores
      rw [hacc]
      rfl
    rw [Categorizer.suggest_categories_def, hfs, hacc]
    have hr : Categorizer.resolveRanks (Categorizer.categoryNames Categorizer.defaultData)
        [("Other", 1)] = .ok [(("Other", 1), 11)] := rfl
    rw [hr]
    dsimp only
    have hs : ([(("Other", 1), 11)].insertionSort (rkLE (fun p => p.1.2) Prod.snd)) =
        [(("Other", 1), 11)] := rfl
    rw [hs, List.take_of_length_le (by simpa using htop)]
    rfl

/-- C3 witness: both conclusions at the concrete whitespace text `" \t"`. -/
theorem c3_empty_text_witness :
    Catagory.suggest_categories (fun _ => []) (fun _ _ => 0)
        (fun _ => Catagory.FetchOutcome.netFail) ⟨[], []⟩ " \t" 3 =
        ([⟨"Others", 1, "Empty line"⟩], ⟨[], []⟩) ∧
      Categorizer.suggest_categories Categorizer.defaultData " \t" 3 =
        .ok [⟨"Other", 1, "🔖", "No strong keyword match."⟩] :=
  ⟨(c3_empty_text " \t" (by decide)).1 _ _ _ _ 3,
   (c3_empty_text " \t" (by decide)).2 3 (by decide)⟩

/-- C7: whenever the simple variant's bare-number search finds an amount
above 5000, `Home & Rent` and `Investment & Savings` each gain exactly 1
while all other categories keep their score; concretely,
`suggest_categories("Paid 7500 for rent")` ranks `Home & Rent` first with
score 6 (3 keyword + 2 regex + 1 amount ≥ 4) and explanation
`"Matched keywords: rent"`. -/
theorem c7_amount_heuristic :
    (∀ (reg : List Categorizer.Cat) (text : String) (amt : Nat),
      findBareAmount (pyLower text.data) = some amt → 5000 < amt →
      scoreOf (Categorizer.heuristicAcc reg (pyLower text.data)).scores "Home & Rent" =
          scoreOf (Categorizer.regexPass (Categorizer.keywordPass reg (pyLower text.data))
            (pyLower text.data)).scores "Home & Rent" + 1 ∧
        scoreOf (Categorizer.heuristicAcc reg (pyLower text.data)).scores
            "Investment & Savings" =
          scoreOf (Categorizer.regexPass (Categorizer.keywordPass reg (pyLower text.data))
            (pyLower text.data)).scores "Investment & Savings" + 1 ∧
        ∀ c, c ≠ "Home & Rent" → c ≠ "Investment & Savings" →
          scoreOf (Categorizer.heuristicAcc reg (pyLower text.data)).scores c =
            scoreOf (Categorizer.regexPass (Categorizer.keywordPass reg (pyLower text.data))
              (pyLower text.data)).scores c) ∧
      Categorizer.suggest_categories Categorizer.defaultData "Paid 7500 for rent" 3 =
        .ok [⟨"Home & Rent", 6, "🏠", "Matched keywords: rent"⟩,
             ⟨"Investment & Savings", 1, "💹", "No strong keyword match."⟩] := by
  constructor
  · intro reg text amt hamt h5
    exact Categorizer.amountPass_adds_one hamt h5
  · rfl

/-- C7 witness: the heuristic hypotheses hold at the example text. -/
theorem c7_amount_heuristic_witness :
    scoreOf (Categorizer.heuristicAcc Categorizer.defaultData
        (pyLower "Paid 7500 for rent".data)).scores "Home & Rent" =
      scoreOf (Categorizer.regexPass
          (Categorizer.keywordPass Categorizer.defaultData
            (pyLower "Paid 7500 for rent".data))
          (pyLower "Paid 7500 for rent".data)).scores "Home & Rent" + 1 :=
  (c7_amount_heuristic.1 Categorizer.defaultData "Paid 7500 for rent" 7500 rfl
    (by decide)).1

/-- C10: when the registry has been replaced by an override that omits one
of the hard-coded heuristic names, the simple variant raises `ValueError`
at the ranking step: an input matching the education words, the rent words,
or containing a bare number above 5000 scores the missing name, whose
`CATEGORY_NAMES.index` lookup then fails; likewise a registry without
`"Other"` fails on any input that matches nothing. -/
theorem c10_missing_names_value_error :
    (∀ (reg : List Categorizer.Cat) (topN : Nat),
      "Children & Education" ∉ Categorizer.categoryNames reg →
      Categorizer.suggest_categories reg "school fees" topN = .error "ValueError") ∧
      (∀ (reg : List Categorizer.Cat) (topN : Nat),
        "Home & Rent" ∉ Categorizer.categoryNames reg →
        Categorizer.suggest_categories reg "paid rent" topN = .error "ValueError") ∧
      (∀ (reg : List Categorizer.Cat) (topN : Nat),
        "Investment & Savings" ∉ Categorizer.categoryNames reg →
        Categorizer.suggest_categories reg "paid 7500" topN = .error "ValueError") ∧
      Categorizer.suggest_categories [⟨"Food & Dining", "🍛", ["meal"]⟩] "zzz" 3 =
        .error "ValueError" := by
  refine ⟨?_, ?_, ?_, rfl⟩
  · intro reg topN hmiss
    refine Categorizer.suggest_error_of_missing topN
      (Categorizer.mem_finalScores_of_mem ?_) hmiss
    exact Categorizer.eduKey_mem_heuristicAcc reg (by decide)
  · intro reg topN hmiss
    refine Categorizer.suggest_error_of_missing topN
      (Categorizer.mem_finalScores_of_mem ?_) hmiss
    exact Categorizer.rentKey_mem_heuristicAcc reg (by decide)
  · intro reg topN hmiss
    refine Categorizer.suggest_error_of_missing topN
      (Categorizer.mem_finalScores_of_mem ?_) hmiss
    exact Categorizer.investKey_mem_heuristicAcc reg rfl (by decide)

/-- C10 witness: a concrete override registry missing the heuristic names
fails on each of the example inputs. -/
theorem c10_missing_names_value_error_witness :
    Categorizer.suggest_categories [⟨"Food & Dining", "🍛", ["meal"]⟩] "school fees" 3 =
        .error "ValueError" ∧
      Categorizer.suggest_categories [⟨"Food & Dining", "🍛", ["meal"]⟩] "paid rent" 3 =
        .error "ValueError" ∧
      Categorizer.suggest_categories [⟨"Food & Dining", "🍛", ["meal"]⟩] "paid 7500" 3 =
        .error "ValueError" :=
  ⟨c10_missing_names_value_error.1 [⟨"Food & Dining", "🍛", ["meal"]⟩] 3 (by decide),
   c10_missing_names_value_error.2.1 [⟨"Food & Dining", "🍛", ["meal"]⟩] 3 (by decide),
   c10_missing_names_value_error.2.2.1 [⟨"Food & Dining", "🍛", ["meal"]⟩] 3 (by decide)⟩

/-- C8: `suggest_categories` never fails on any input text.  The advanced
variant is total and always returns a non-empty list of suggestions whose
categories are registry names with positive scores; the simple variant,
under the built-in registry, always returns `.ok` (it never reaches its
`ValueError` path). -/
theorem c8_total_on_any_text :
    (∀ (tok : String → List String) (ratio : String → String → Nat)
        (fetch : String → Catagory.FetchOutcome) (st : Catagory.CNState)
        (text : String) (topN : Nat),
      (Catagory.suggest_categories tok ratio fetch st text topN).1 ≠ [] ∧
        ∀ s ∈ (Catagory.suggest_categories tok ratio fetch st text topN).1,
          1 ≤ s.score ∧ s.category ∈ Catagory.categoryNames) ∧
      ∀ (text : String) (topN : Nat),
        ∃ out, Categorizer.suggest_categories Categorizer.defaultData text topN =
          .ok out := by
  constructor
  · intro tok ratio fetch st text topN
    by_cases hemp : pyStrip text.data = []
    · constructor
      · simp [Catagory.suggest_categories, hemp]
      · intro s hs
        simp only [Catagory.suggest_categories, if_pos hemp, List.mem_singleton] at hs
        subst hs
        exact ⟨le_refl 1, Catagory.others_mem_names⟩
    · rw [Catagory.suggest_categories_eq tok ratio fetch st text topN hemp]
      obtain ⟨hsub, hnd, hpos, hne⟩ :=
        Catagory.finalScores_props tok ratio fetch st text
      have hrne : Catagory.rankScores (Catagory.finalScores tok ratio fetch st text) ≠ [] := by
        intro h
        apply hne
        have := (List.perm_insertionSort
          (rkLE Prod.snd (fun p => Catagory.priorityOf p.1))
          (Catagory.finalScores tok ratio fetch st text)).length_eq
        rw [Catagory.rankScores] at h
        rw [h] at this
        exact List.eq_nil_of_length_eq_zero this.symm
      obtain ⟨hd, tl, hcons⟩ := List.exists_cons_of_ne_nil hrne
      constructor
      · rw [hcons]
        obtain ⟨cat, score⟩ := hd
        exact Catagory.finalLoop_ne_nil _ topN cat score tl
      · intro s hs
        have hmem := Catagory.finalLoop_mem _ topN _ [] 0 s hs
        have hmem2 : (s.category, s.score) ∈
            Catagory.finalScores tok ratio fetch st text :=
          (List.perm_insertionSort _ _).subset hmem
        refine ⟨hpos _ hmem2, hsub _ (List.mem_map_of_mem _ hmem2)⟩
  · intro text topN
    rw [Categorizer.suggest_categories_def]
    obtain ⟨wr, hwr⟩ := Categorizer.resolveRanks_ok_of_subset
      (Categorizer.finalScores_default_subset text)
    rw [hwr]
    exact ⟨_, rfl⟩

/-- C8 witness: totality at concrete inputs (a non-alphabetic text). -/
theorem c8_total_on_any_text_witness :
    ((Catagory.suggest_categories (fun _ => []) (fun _ _ => 0)
        (fun _ => Catagory.FetchOutcome.netFail) ⟨[], []⟩ "###123!!!" 3).1 ≠ []) ∧
      ∃ out, Categorizer.suggest_categories Categorizer.defaultData "###123!!!" 3 =
        .ok out :=
  ⟨((c8_total_on_any_text.1 (fun _ => []) (fun _ _ => 0)
      (fun _ => Catagory.FetchOutcome.netFail) ⟨[], []⟩ "###123!!!" 3)).1,
   c8_total_on_any_text.2 "###123!!!" 3⟩

/-- C9: `suggest_categories` is deterministic.  The engine's output is a
pure function of the text, the fuzzy/tokenizer/fetch functions, and the
cache state (first conjunct), and running the same call twice in sequence —
threading the possibly-updated cache through — reproduces the identical
suggestion list, evidence order included (second conjunct). -/
theorem c9_deterministic :
    (∀ (tok tok' : String → List String) (ratio ratio' : String → String → Nat)
        (fetch fetch' : String → Catagory.FetchOutcome) (st st' : Catagory.CNState)
        (text text' : String) (topN topN' : Nat),
      tok = tok' → ratio = ratio' → fetch = fetch' → st = st' → text = text' →
      topN = topN' →
      Catagory.suggest_categories tok ratio fetch st text topN =
        Catagory.suggest_categories tok' ratio' fetch' st' text' topN') ∧
      ∀ (tok : String → List String) (ratio : String → String → Nat)
          (fetch : String → Catagory.FetchOutcome) (st : Catagory.CNState)
          (text : String) (topN : Nat),
        (Catagory.suggest_categories tok ratio fetch
            (Catagory.suggest_categories tok ratio fetch st text topN).2 text topN).1 =
          (Catagory.suggest_categories tok ratio fetch st text topN).1 := by
  constructor
  · intro tok tok' ratio ratio' fetch fetch' st st' text text' topN topN'
      h1 h2 h3 h4 h5 h6
    subst h1; subst h2; subst h3; subst h4; subst h5; subst h6
    rfl
  · intro tok ratio fetch st text topN
    by_cases hemp : pyStrip text.data = []
    · simp [Catagory.suggest_categories, hemp]
    · have hext : Catagory.Ext fetch st
          (Catagory.processTokens ratio fetch
            (tok (String.mk (pyLower text.data))) ⟨[], []⟩ st).2 :=
        (Catagory.processTokens_congr ratio fetch st _ ⟨[], []⟩ st st
          (Catagory.ext_refl fetch st) (Catagory.ext_refl fetch st)).2
      have hacc : (Catagory.processTokens ratio fetch
            (tok (String.mk (pyLower text.data))) ⟨[], []⟩
            (Catagory.processTokens ratio fetch
              (tok (String.mk (pyLower text.data))) ⟨[], []⟩ st).2).1 =
          (Catagory.processTokens ratio fetch
            (tok (String.mk (pyLower text.data))) ⟨[], []⟩ st).1 :=
        (Catagory.processTokens_congr ratio fetch st _ ⟨[], []⟩ _ st
          hext (Catagory.ext_refl fetch st)).1
      simp only [Catagory.suggest_categories, if_neg hemp]
      rw [hacc]

/-- C9 witness: determinism at a concrete call. -/
theorem c9_deterministic_witness :
    Catagory.suggest_categories (fun _ => ["rent"]) (fun _ _ => 0)
        (fun _ => Catagory.FetchOutcome.netFail) ⟨[], []⟩ "rent" 3 =
      Catagory.suggest_categories (fun _ => ["rent"]) (fun _ _ => 0)
        (fun _ => Catagory.FetchOutcome.netFail) ⟨[], []⟩ "rent" 3 :=
  c9_deterministic.1 _ _ _ _ _ _ _ _ _ _ _ _ rfl rfl rfl rfl rfl rfl

/-- C1: suggestion lists are sorted by strictly descending score with ties
broken by ascending registry order, a total order.  In the advanced variant
the rank is the priority field, which is itself strictly increasing along
the registry declaration order (first conjunct); in the simple variant the
rank is the index in `CATEGORY_NAMES`.  Distinct scored categories always
receive distinct ranks, so adjacent equal-score entries are strictly
ordered by rank. -/
theorem c1_ranking_order :
    (Catagory.CATEGORY_DATA.map (·.priority)).Pairwise (· < ·) ∧
      (∀ (tok : String → List String) (ratio : String → String → Nat)
          (fetch : String → Catagory.FetchOutcome) (st : Catagory.CNState)
          (text : String) (topN : Nat),
        ((Catagory.suggest_categories tok ratio fetch st text topN).1.map
          (fun s => (s.category, s.score))).Pairwise Catagory.outOrder) ∧
      ∀ (reg : List Categorizer.Cat) (text : String) (topN : Nat)
          (out : List Categorizer.Suggestion),
        Categorizer.suggest_categories reg text topN = .ok out →
        out.Pairwise (fun a b => b.score < a.score ∨ (a.score = b.score ∧
          (Categorizer.idxOf (Categorizer.categoryNames reg) a.category).getD 0 <
            (Categorizer.idxOf (Categorizer.categoryNames reg) b.category).getD 0)) := by
  refine ⟨Catagory.priorities_increasing, ?_, ?_⟩
  · intro tok ratio fetch st text topN
    by_cases hemp : pyStrip text.data = []
    · simp [Catagory.suggest_categories, hemp]
    · rw [Catagory.suggest_categories_eq tok ratio fetch st text topN hemp]
      obtain ⟨hsub, hnd, _, _⟩ := Catagory.finalScores_props tok ratio fetch st text
      exact Catagory.finalLoop_pairwise _ topN hsub hnd
  · intro reg text topN out hout
    rw [Categorizer.suggest_categories_def] at hout
    cases hr : Categorizer.resolveRanks (Categorizer.categoryNames reg)
        (Categorizer.finalScores reg text) with
    | error e => rw [hr] at hout; cases hout
    | ok wr =>
      rw [hr] at hout
      cases hout
      have hkeys := Categorizer.resolveRanks_keys hr
      have hranks := Categorizer.resolveRanks_rank hr
      have hperm := List.perm_insertionSort (rkLE (fun p => p.1.2) Prod.snd) wr
      have hnd : (wr.map (fun p => p.1.1)).Nodup := by
        have heq : wr.map (fun p => p.1.1) =
            (Categorizer.finalScores reg text).map Prod.fst := by
          rw [← hkeys, List.map_map]
          rfl
        rw [heq]
        exact Categorizer.finalScores_nodup _ _
      have hstrict : (wr.insertionSort (rkLE (fun p => p.1.2) Prod.snd)).Pairwise
          (strictRank (fun p => p.1.2) Prod.snd) := by
        refine pairwise_strict_insertionSort (fun p => p.1.2) Prod.snd
          (fun p => p.1.1) wr hnd ?_
        intro a ha b hb hne heqr
        exact hne (Categorizer.idxOf_eq_some_inj (hranks a ha)
          (heqr ▸ hranks b hb))
      have htake : ((wr.insertionSort (rkLE (fun p => p.1.2) Prod.snd)).take topN).Pairwise
          (strictRank (fun p => p.1.2) Prod.snd) :=
        hstrict.sublist (List.take_sublist _ _)
      rw [List.pairwise_map]
      refine List.Pairwise.imp_of_mem ?_ htake
      intro p q hp hq hpq
      have hpw : p ∈ wr := hperm.subset (List.take_subset _ _ hp)
      have hqw : q ∈ wr := hperm.subset (List.take_subset _ _ hq)
      have hrp : (Categorizer.idxOf (Categorizer.categoryNames reg) p.1.1).getD 0 = p.2 := by
        rw [hranks p hpw]; rfl
      have hrq : (Categorizer.idxOf (Categorizer.categoryNames reg) q.1.1).getD 0 = q.2 := by
        rw [hranks q hqw]; rfl
      rcases hpq with h | ⟨h1, h2⟩
      · exact Or.inl h
      · exact Or.inr ⟨h1, by rw [hrp, hrq]; exact h2⟩

/-- C1 witness: the ordering at a concrete call of each variant. -/
theorem c1_ranking_order_witness :
    (((Catagory.suggest_categories (fun _ => ["rent"]) (fun _ _ => 0)
        (fun _ => Catagory.FetchOutcome.netFail) ⟨[], []⟩ "rent" 3).1.map
          (fun s => (s.category, s.score))).Pairwise Catagory.outOrder) ∧
      ([(⟨"Home & Rent", 5, "🏠", "Matched keywords: rent"⟩ :
          Categorizer.Suggestion)].Pairwise (fun a b => b.score < a.score ∨
        (a.score = b.score ∧
          (Categorizer.idxOf (Categorizer.categoryNames Categorizer.defaultData)
              a.category).getD 0 <
            (Categorizer.idxOf (Categorizer.categoryNames Categorizer.defaultData)
              b.category).getD 0))) :=
  ⟨c1_ranking_order.2.1 (fun _ => ["rent"]) (fun _ _ => 0)
      (fun _ => Catagory.FetchOutcome.netFail) ⟨[], []⟩ "rent" 3,
   c1_ranking_order.2.2 Categorizer.defaultData "rent" 3 _ rfl⟩
